import Mathlib

/-!
# Verification of the revenue-share allocation engine

Shallow embedding of the `PayoutCalculator` class (standard allocation engine,
buy-to-earn simulator, and payback estimator) over exact rational arithmetic,
together with proofs of the specified properties.

Modelling conventions:
* JavaScript numbers are modelled as `ℚ` (exact arithmetic).
* JavaScript objects used as string-keyed maps are modelled as association
  lists in insertion order, mirroring `Object.entries` iteration order.
* JavaScript truthiness of a numeric field (`timestamp`, `count`) is
  modelled explicitly (`0` and absent are falsy).
* `Array.prototype.sort` is modelled as a stable merge sort over the
  source's comparator.
* `Math.log10` (floating point) is modelled as an abstract function
  parameter; all results proved are independent of its value.
* `Number.prototype.toFixed(2)` is modelled as rounding to two decimal
  digits (ties toward positive infinity, as ECMAScript prescribes).
-/

namespace RevShare

/-- A sale record: a buyer identifier and an optional timestamp. -/
structure Sale where
  buyer : String
  timestamp : Option ℚ := none
deriving DecidableEq

/-- One allocation rule of a scheme.  `count = 0` models an absent (falsy)
`count` field, matching the JavaScript truthiness test `rule.count`. -/
structure Rule where
  percentage : Option ℚ := none
  count : Nat := 0
  fromEnd : Bool := false
  remainder : Bool := false
deriving DecidableEq

/-- A scheme: key/rule pairs in insertion order (`Object.entries`). -/
abbrev Scheme := List (String × Rule)

/-- The payouts accumulator.  `promotion` is `none` until first touched,
matching the lazily created `payouts.promotion` field. -/
structure Payouts where
  author : ℚ
  platform : ℚ
  promotion : Option ℚ
  buyers : List (String × ℚ)
deriving DecidableEq

/-- Stable merge of two lists by a boolean comparator (ties keep the left
element first, as in a stable sort). -/
def jsMerge {α : Type} (le : α → α → Bool) : List α → List α → List α
  | [], ys => ys
  | xs, [] => xs
  | x :: xs, y :: ys =>
      if le x y then x :: jsMerge le xs (y :: ys) else y :: jsMerge le (x :: xs) ys
termination_by xs ys => xs.length + ys.length

/-- Stable merge sort, modelling `Array.prototype.sort` with a comparator. -/
def jsMergeSort {α : Type} (le : α → α → Bool) (l : List α) : List α :=
  if l.length ≤ 1 then l
  else
    jsMerge le (jsMergeSort le (l.take (l.length / 2)))
      (jsMergeSort le (l.drop (l.length / 2)))
termination_by l.length
decreasing_by
  · simp only [List.length_take]; omega
  · simp only [List.length_drop]; omega

/-- JavaScript truthiness of the `timestamp` field: present and nonzero. -/
def tsTruthy (s : Sale) : Bool :=
  match s.timestamp with
  | some t => decide (t ≠ 0)
  | none => false

/-- The source comparator `(a, b) => (a.timestamp && b.timestamp) ?
a.timestamp - b.timestamp : 0`, rendered as a boolean "comparator result
is ≤ 0" relation. -/
def jsLe (a b : Sale) : Bool :=
  match a.timestamp, b.timestamp with
  | some ta, some tb => if ta ≠ 0 ∧ tb ≠ 0 then decide (ta ≤ tb) else true
  | _, _ => true

/-- `[...sales].sort((a, b) => (a.timestamp && b.timestamp) ? a.timestamp -
b.timestamp : 0)`. -/
def sortSales (sales : List Sale) : List Sale := jsMergeSort jsLe sales

/-- `String.prototype.startsWith`, evaluated on the underlying characters. -/
def keyStartsWith (k p : String) : Bool := p.data.isPrefixOf k.data

/-- JavaScript object write `m[k] = v`: update the existing entry or append. -/
def setBuyer : List (String × ℚ) → String → ℚ → List (String × ℚ)
  | [], k, v => [(k, v)]
  | (k1, v1) :: rest, k, v =>
      if k1 = k then (k1, v) :: rest else (k1, v1) :: setBuyer rest k v

/-- JavaScript object update `m[k] += v` (all call sites have the key
present, so the absent-key case simply inserts). -/
def addBuyer : List (String × ℚ) → String → ℚ → List (String × ℚ)
  | [], k, v => [(k, v)]
  | (k1, v1) :: rest, k, v =>
      if k1 = k then (k1, v1 + v) :: rest else (k1, v1) :: addBuyer rest k v

/-- Read a buyer's accumulated payout (0 when the key is absent). -/
def buyerAt (m : List (String × ℚ)) (b : String) : ℚ :=
  match m.find? (fun q => q.1 = b) with
  | some q => q.2
  | none => 0

/-- Sum of all entries of the per-buyer mapping. -/
def buyersSum (m : List (String × ℚ)) : ℚ := (m.map Prod.snd).sum

/-- `_processAllBuyersAllocation`: split `share` equally over all sales. -/
def processAllBuyersAllocation (sortedSales : List Sale) (payouts : Payouts)
    (share : ℚ) : Payouts :=
  if sortedSales.length ≤ 0 then payouts
  else
    let individualShare := share / (sortedSales.length : ℚ)
    { payouts with
      buyers := sortedSales.foldl (fun m s => addBuyer m s.buyer individualShare)
        payouts.buyers }

/-- `_processGroupAllocation`: split `share` equally over the first
`count` sales (`slice(0, count)`), or the last `count` (`slice(-count)`)
when `fromEnd` is set. -/
def processGroupAllocation (rule : Rule) (sortedSales : List Sale)
    (payouts : Payouts) (share : ℚ) : Payouts :=
  let group :=
    if rule.fromEnd then sortedSales.drop (sortedSales.length - rule.count)
    else sortedSales.take rule.count
  let groupSize := min group.length rule.count
  if groupSize ≤ 0 then payouts
  else
    let individualShare := share / (groupSize : ℚ)
    { payouts with
      buyers := group.foldl (fun m s => addBuyer m s.buyer individualShare)
        payouts.buyers }

/-- The key dispatch of `_processFixedPercentages` (the body of its loop
after the `percentage` check): author / platform / promotion / group rule
(`rule.count` truthy) / all-buyers key, in that order. -/
def routeShareFixed (k : String) (rule : Rule) (sortedSales : List Sale)
    (payouts : Payouts) (share : ℚ) : Payouts :=
  if k = "author" then { payouts with author := payouts.author + share }
  else if k = "platform" then { payouts with platform := payouts.platform + share }
  else if k = "promotion" then
    { payouts with promotion := some (payouts.promotion.getD 0 + share) }
  else if rule.count ≠ 0 then processGroupAllocation rule sortedSales payouts share
  else if k = "allBuyers" ∨ keyStartsWith k "buyers" = true then
    processAllBuyersAllocation sortedSales payouts share
  else payouts

/-- The key dispatch of the loop inside `_processRemainder`: author /
platform / promotion / all-buyers key / group rule, in that order (note
the all-buyers test precedes the `rule.count` test here, unlike in the
fixed-percentage pass). -/
def routeShareRemainder (k : String) (rule : Rule) (sortedSales : List Sale)
    (payouts : Payouts) (share : ℚ) : Payouts :=
  if k = "author" then { payouts with author := payouts.author + share }
  else if k = "platform" then { payouts with platform := payouts.platform + share }
  else if k = "promotion" then
    { payouts with promotion := some (payouts.promotion.getD 0 + share) }
  else if k = "allBuyers" ∨ keyStartsWith k "buyers" = true then
    processAllBuyersAllocation sortedSales payouts share
  else if rule.count ≠ 0 then processGroupAllocation rule sortedSales payouts share
  else payouts

/-- `_processFixedPercentages`: for every rule carrying a `percentage`,
route `totalRevenue * percentage / 100`. -/
def processFixedPercentages (scheme : Scheme) (sortedSales : List Sale)
    (payouts : Payouts) (totalRevenue : ℚ) : Payouts :=
  scheme.foldl
    (fun p kr =>
      match kr.2.percentage with
      | none => p
      | some pct => routeShareFixed kr.1 kr.2 sortedSales p (totalRevenue * pct / 100))
    payouts

/-- `_calculateAllocatedPercentage`: sum of all `percentage` fields. -/
def calculateAllocatedPercentage (scheme : Scheme) : ℚ :=
  (scheme.filterMap (fun kr => kr.2.percentage)).sum

/-- `_processRemainder`: distribute `totalRevenue * (1 −
totalAllocatedPercentage/100)`.  With no remainder-flagged rule it goes
wholly to `author` (when present); otherwise it is split evenly over the
remainder-flagged rules and routed per `routeShareRemainder`. -/
def processRemainder (scheme : Scheme) (sortedSales : List Sale)
    (payouts : Payouts) (totalRevenue totalAllocatedPercentage : ℚ) : Payouts :=
  let rem := totalRevenue * (1 - totalAllocatedPercentage / 100)
  if rem ≤ 0 then payouts
  else
    let remainderRules := scheme.filter (fun kr => kr.2.remainder)
    if remainderRules.length = 0 ∧ scheme.any (fun kr => kr.1 = "author") = true then
      { payouts with author := payouts.author + rem }
    else
      let sharePerRule := rem / (remainderRules.length : ℚ)
      remainderRules.foldl
        (fun p kr => routeShareRemainder kr.1 kr.2 sortedSales p sharePerRule) payouts

/-- `PayoutCalculator.calculate` (standard model): sort, initialise every
buyer to 0, run the fixed-percentage pass, then the remainder pass. -/
def calculate (sales : List Sale) (scheme : Scheme) (totalRevenue : ℚ) : Payouts :=
  let sortedSales := sortSales sales
  let payouts : Payouts :=
    { author := 0, platform := 0, promotion := none,
      buyers := sortedSales.foldl (fun m s => setBuyer m s.buyer 0) [] }
  let payouts := processFixedPercentages scheme sortedSales payouts totalRevenue
  let totalAllocatedPercentage := calculateAllocatedPercentage scheme
  processRemainder scheme sortedSales payouts totalRevenue totalAllocatedPercentage

/-- Buy-to-earn parameters. -/
structure BteParams where
  initialInvestment : ℚ
  creatorShare : ℚ
  platformShare : ℚ
  promotionShare : ℚ
  paybackRatio : ℚ
  nonPaybackPoolSharePercent : ℚ
  specificTokenNumber : ℤ := 1
deriving DecidableEq

/-- Mutable state of the buy-to-earn simulation loop. -/
structure BteState where
  creatorRevenue : ℚ
  platformRevenue : ℚ
  promotionRevenue : ℚ
  totalRevenue : ℚ
  tokenEarnings : ℤ → ℚ
  paidBackCount : ℕ
  paybackPoint : Option ℤ
  totalRevenueAtPayback : ℚ
  creatorRevenueAtPayback : ℚ
  platformRevenueAtPayback : ℚ

/-- Result record of `calculateBuyToEarnPayouts`. -/
structure BteResult where
  creator : ℚ
  platform : ℚ
  promotion : ℚ
  buyer : ℚ
  prepayersCount : ℤ
  paidBackCount : ℕ
  paybackPoint : Option ℤ
  totalRevenueAtPayback : ℚ
  creatorRevenueAtPayback : ℚ
  platformRevenueAtPayback : ℚ
  paybackGoal : ℚ
  actualInitialInvestment : ℚ
deriving DecidableEq

/-- The integer range `[a, b]` as a list (the simulation's loop indices). -/
def intsFromTo (a b : ℤ) : List ℤ :=
  (List.range (b + 1 - a).toNat).map (fun (k : ℕ) => a + (k : ℤ))

/-- `numPrepayers = Math.ceil(initialInvestment / unitPrice)`. -/
def numPrepayers (p : BteParams) (unitPrice : ℚ) : ℤ :=
  ⌈p.initialInvestment / unitPrice⌉

/-- `paybackGoal = unitPrice * paybackRatio`. -/
def paybackGoalQ (p : BteParams) (unitPrice : ℚ) : ℚ := unitPrice * p.paybackRatio

/-- `buyersShare = 100 - creatorShare - platformShare - promotionShare`. -/
def buyersShareQ (p : BteParams) : ℚ :=
  100 - p.creatorShare - p.platformShare - p.promotionShare

/-- Body of the inner token loop of the simulation: credit token `i` its
share(s) for the sale at position `cs`, update the paid-back counter, and
capture the snapshot for the tracked token at its first crossing. -/
def bteTokenStep (paybackGoal sharedShare nonShare : ℚ) (specific : ℤ) (cs : ℤ)
    (st : BteState) (i : ℤ) : BteState :=
  let wasPaidBackBefore : Bool := decide (paybackGoal ≤ st.tokenEarnings i)
  let earning := sharedShare + (if wasPaidBackBefore then 0 else nonShare)
  let newEarn := st.tokenEarnings i + earning
  let st1 : BteState :=
    { st with tokenEarnings := fun j => if j = i then newEarn else st.tokenEarnings j }
  if paybackGoal ≤ newEarn then
    let st2 := { st1 with paidBackCount := st1.paidBackCount + 1 }
    if i = specific ∧ st2.paybackPoint = none then
      { st2 with
        paybackPoint := some cs,
        totalRevenueAtPayback := st2.totalRevenue,
        creatorRevenueAtPayback := st2.creatorRevenue,
        platformRevenueAtPayback := st2.platformRevenue }
    else st2
  else st1

/-- One iteration of the outer per-sale simulation loop at sale position
`cs`: unconditional revenue increments, then the dual-pool distribution
over tokens `1 .. cs − 1`. -/
def bteSaleStep (p : BteParams) (unitPrice : ℚ) (cs : ℤ) (st : BteState) : BteState :=
  let st :=
    { st with
      totalRevenue := st.totalRevenue + unitPrice,
      creatorRevenue := st.creatorRevenue + unitPrice * (p.creatorShare / 100),
      platformRevenue := st.platformRevenue + unitPrice * (p.platformShare / 100),
      promotionRevenue := st.promotionRevenue + unitPrice * (p.promotionShare / 100) }
  let buyersAmount := unitPrice * (buyersShareQ p / 100)
  let numTokensInDistribution : ℤ := cs - 1
  if 0 < numTokensInDistribution then
    let goal := paybackGoalQ p unitPrice
    let tokens := intsFromTo 1 numTokensInDistribution
    let notPaidBackCount : ℕ :=
      tokens.countP (fun i => decide (st.tokenEarnings i < goal))
    let nonPaybackPoolAmount := buyersAmount * (p.nonPaybackPoolSharePercent / 100)
    let sharedPoolAmount := buyersAmount * ((100 - p.nonPaybackPoolSharePercent) / 100)
    let nonPaybackSharePerToken :=
      if 0 < notPaidBackCount then nonPaybackPoolAmount / (notPaidBackCount : ℚ) else 0
    let sharedSharePerToken := sharedPoolAmount / (numTokensInDistribution : ℚ)
    let st := { st with paidBackCount := 0 }
    tokens.foldl
      (bteTokenStep goal sharedSharePerToken nonPaybackSharePerToken
        p.specificTokenNumber cs) st
  else st

/-- The simulation state entering the per-sale loop: the creator holds the
full prepayment, all token earnings are zero. -/
def bteInitState (p : BteParams) : BteState :=
  { creatorRevenue := p.initialInvestment, platformRevenue := 0,
    promotionRevenue := 0, totalRevenue := p.initialInvestment,
    tokenEarnings := fun _ => 0, paidBackCount := 0, paybackPoint := none,
    totalRevenueAtPayback := 0, creatorRevenueAtPayback := 0,
    platformRevenueAtPayback := 0 }

/-- `PayoutCalculator.calculateBuyToEarnPayouts`. -/
def calculateBuyToEarnPayouts (sales : List Sale) (unitPrice : ℚ)
    (p : BteParams) : BteResult :=
  let totalSales := sales.length
  let np := numPrepayers p unitPrice
  let goal := paybackGoalQ p unitPrice
  if (totalSales : ℤ) < np then
    { creator := p.initialInvestment, platform := 0, promotion := 0, buyer := 0,
      prepayersCount := np, paidBackCount := 0, paybackPoint := none,
      totalRevenueAtPayback := 0, creatorRevenueAtPayback := 0,
      platformRevenueAtPayback := 0, paybackGoal := goal,
      actualInitialInvestment := p.initialInvestment }
  else
    let sortedSales := sortSales sales
    let stF :=
      (intsFromTo (np + 1) (totalSales : ℤ)).foldl
        (fun st cs => bteSaleStep p unitPrice cs st) (bteInitState p)
    { creator := stF.creatorRevenue, platform := stF.platformRevenue,
      promotion := stF.promotionRevenue,
      buyer :=
        if p.specificTokenNumber ≤ (totalSales : ℤ) then
          stF.tokenEarnings p.specificTokenNumber
        else 0,
      prepayersCount := np, paidBackCount := stF.paidBackCount,
      paybackPoint := stF.paybackPoint,
      totalRevenueAtPayback := stF.totalRevenueAtPayback,
      creatorRevenueAtPayback := stF.creatorRevenueAtPayback,
      platformRevenueAtPayback := stF.platformRevenueAtPayback,
      paybackGoal := goal, actualInitialInvestment := p.initialInvestment }

/-- Result record of `estimateTokenPayback`. -/
structure EstimateResult where
  paybackSale : ℚ
  accumulatedEarnings : ℚ
  roi : ℚ
deriving DecidableEq

/-- `Number.prototype.toFixed(2)` as two-decimal rounding (ECMAScript picks
the larger candidate on ties). -/
def roundTo2 (x : ℚ) : ℚ := ((round (x * 100) : ℤ) : ℚ) / 100

/-- `PayoutCalculator.estimateTokenPayback`.  `log10` abstracts the
floating-point `Math.log10`; every property proved below holds for all
values of it. -/
def estimateTokenPayback (log10 : ℚ → ℚ) (tokenNumber tokenPrice paybackRatio
    nonPaybackPoolPercent buyersShare : ℚ) : EstimateResult :=
  let goal := tokenPrice * paybackRatio
  let baseMultiplier : ℚ := 1000
  let priorityFactor := nonPaybackPoolPercent
  let tokenPositionFactor :=
    if tokenNumber ≤ 100 then 0.8 + tokenNumber / 500
    else if tokenNumber ≤ 500 then 1.0 + log10 (tokenNumber / 100) * 0.5
    else
      let lateTokenBase := 1.2 + log10 (tokenNumber / 500) * 0.3
      if 0.9 ≤ nonPaybackPoolPercent then lateTokenBase * 0.8
      else if 0.7 ≤ nonPaybackPoolPercent then lateTokenBase * 0.9
      else lateTokenBase * 1.1
  let paybackSale0 : ℚ :=
    ((round (baseMultiplier * paybackRatio * (1 / buyersShare) *
      (1 / priorityFactor) * tokenPositionFactor) : ℤ) : ℚ)
  let paybackSale1 :=
    if 0.7 ≤ nonPaybackPoolPercent ∧ 100 < tokenNumber ∧ tokenNumber ≤ 500 then
      paybackSale0 * 1.1
    else paybackSale0
  let paybackSale2 :=
    if nonPaybackPoolPercent ≤ 0.4 ∧ 500 < tokenNumber then paybackSale1 * 1.15
    else paybackSale1
  let paybackSale := max paybackSale2 (tokenNumber + 100)
  let accumulatedEarnings := goal
  let roi := roundTo2 (accumulatedEarnings / tokenPrice * 100 - 100)
  { paybackSale := paybackSale, accumulatedEarnings := accumulatedEarnings,
    roi := roi }

/-- A rule key the engine can route: a reserved stakeholder, a group rule
(truthy `count`), or an all-buyers key. -/
def routableKey (k : String) (r : Rule) : Prop :=
  k = "author" ∨ k = "platform" ∨ k = "promotion" ∨ r.count ≠ 0 ∨
    k = "allBuyers" ∨ keyStartsWith k "buyers" = true

instance (k : String) (r : Rule) : Decidable (routableKey k r) := by
  unfold routableKey; infer_instance

/-- Well-formedness of a scheme, as assumed by the conservation claim:
percentages within `[0, 100]` summing to at most 100, every key routable,
and the remainder pass able to place any positive remainder (full
allocation, a remainder-flagged rule, or an `author` key to default to). -/
def WellFormedScheme (scheme : Scheme) : Prop :=
  (∀ kr ∈ scheme, ∀ pct, kr.2.percentage = some pct → 0 ≤ pct ∧ pct ≤ 100) ∧
  calculateAllocatedPercentage scheme ≤ 100 ∧
  (∀ kr ∈ scheme, routableKey kr.1 kr.2) ∧
  (calculateAllocatedPercentage scheme = 100 ∨
    scheme.filter (fun kr => kr.2.remainder) ≠ [] ∨
    scheme.any (fun kr => kr.1 = "author") = true)

/-- Total of all engine outputs: the two fixed stakeholders, the extra
(promotion) stakeholder, and every per-buyer entry. -/
def totalPayout (p : Payouts) : ℚ :=
  p.author + p.platform + p.promotion.getD 0 + buyersSum p.buyers

/-- The remainder pass as the claim states it: each equal share routed
exactly as percentage shares are routed in the fixed-percentage pass. -/
def processRemainderClaimed (scheme : Scheme) (sortedSales : List Sale)
    (payouts : Payouts) (totalRevenue totalAllocatedPercentage : ℚ) : Payouts :=
  let rem := totalRevenue * (1 - totalAllocatedPercentage / 100)
  if rem ≤ 0 then payouts
  else
    let remainderRules := scheme.filter (fun kr => kr.2.remainder)
    if remainderRules.length = 0 ∧ scheme.any (fun kr => kr.1 = "author") = true then
      { payouts with author := payouts.author + rem }
    else
      let sharePerRule := rem / (remainderRules.length : ℚ)
      remainderRules.foldl
        (fun p kr => routeShareFixed kr.1 kr.2 sortedSales p sharePerRule) payouts

/-- The amended per-rule remainder routing: as in the fixed-percentage
pass, except that an all-buyers key carrying a truthy `count` routes to
all buyers rather than to its count-group. -/
def routeShareRemainderSpec (k : String) (rule : Rule) (sortedSales : List Sale)
    (payouts : Payouts) (share : ℚ) : Payouts :=
  if ¬(k = "author" ∨ k = "platform" ∨ k = "promotion") ∧
      (k = "allBuyers" ∨ keyStartsWith k "buyers" = true) ∧ rule.count ≠ 0 then
    processAllBuyersAllocation sortedSales payouts share
  else routeShareFixed k rule sortedSales payouts share

/-- The amount one routed share credits to buyer identifier `b` under the
fixed-percentage pass dispatch: the reserved stakeholder keys credit no
buyer, a truthy-`count` rule credits `share/groupSize` per occurrence of
`b` in its window (nothing when the group is empty), an all-buyers key
credits `share/sales` per occurrence of `b` in the ledger, and an
unroutable key credits nothing.  This is the per-rule allocation of the
per-buyer-mapping claim. -/
def shareCreditFixed (k : String) (rule : Rule) (sortedSales : List Sale)
    (share : ℚ) (b : String) : ℚ :=
  if k = "author" then 0
  else if k = "platform" then 0
  else if k = "promotion" then 0
  else if rule.count ≠ 0 then
    if min rule.count sortedSales.length = 0 then 0
    else ((if rule.fromEnd then
            sortedSales.drop (sortedSales.length - rule.count)
          else sortedSales.take rule.count).countP (fun s => s.buyer == b) : ℚ)
          * (share / ((min rule.count sortedSales.length : ℕ) : ℚ))
  else if k = "allBuyers" ∨ keyStartsWith k "buyers" = true then
    if sortedSales.length = 0 then 0
    else (sortedSales.countP (fun s => s.buyer == b) : ℚ)
          * (share / (sortedSales.length : ℚ))
  else 0

/-- As `shareCreditFixed`, but with the remainder pass's dispatch order
(the all-buyers key test precedes the `count` test). -/
def shareCreditRemainder (k : String) (rule : Rule) (sortedSales : List Sale)
    (share : ℚ) (b : String) : ℚ :=
  if k = "author" then 0
  else if k = "platform" then 0
  else if k = "promotion" then 0
  else if k = "allBuyers" ∨ keyStartsWith k "buyers" = true then
    if sortedSales.length = 0 then 0
    else (sortedSales.countP (fun s => s.buyer == b) : ℚ)
          * (share / (sortedSales.length : ℚ))
  else if rule.count ≠ 0 then
    if min rule.count sortedSales.length = 0 then 0
    else ((if rule.fromEnd then
            sortedSales.drop (sortedSales.length - rule.count)
          else sortedSales.take rule.count).countP (fun s => s.buyer == b) : ℚ)
          * (share / ((min rule.count sortedSales.length : ℕ) : ℚ))
  else 0

/-- The total amount the engine allocates to buyer identifier `b`: the sum
of every percentage rule's credit, plus — when a positive remainder is
split over remainder-flagged rules — the sum of their equal-share
credits.  "Allocations to the same buyer identifier are summed" means the
single per-buyer entry holds exactly this value. -/
def buyerCredit (scheme : Scheme) (sortedSales : List Sale)
    (totalRevenue totalAllocatedPercentage : ℚ) (b : String) : ℚ :=
  (scheme.map (fun kr =>
    match kr.2.percentage with
    | none => 0
    | some pct =>
        shareCreditFixed kr.1 kr.2 sortedSales (totalRevenue * pct / 100) b)).sum
  + (if totalRevenue * (1 - totalAllocatedPercentage / 100) ≤ 0 then 0
     else if (scheme.filter (fun kr => kr.2.remainder)).length = 0 ∧
         scheme.any (fun kr => kr.1 = "author") = true then 0
     else ((scheme.filter (fun kr => kr.2.remainder)).map (fun kr =>
       shareCreditRemainder kr.1 kr.2 sortedSales
         (totalRevenue * (1 - totalAllocatedPercentage / 100) /
           ((scheme.filter (fun kr => kr.2.remainder)).length : ℚ)) b)).sum)

/-! ## Properties of the sort model -/

theorem jsMerge_perm {α : Type} (le : α → α → Bool) (xs ys : List α) :
    List.Perm (jsMerge le xs ys) (xs ++ ys) := by
  induction xs, ys using jsMerge.induct le with
  | case1 ys => simp [jsMerge]
  | case2 x xs => simp [jsMerge]
  | case3 x xs y ys h ih =>
      rw [jsMerge, if_pos h]
      exact ih.cons x
  | case4 x xs y ys h ih =>
      rw [jsMerge, if_neg h]
      exact (ih.cons y).trans List.perm_middle.symm

theorem jsMergeSort_perm {α : Type} (le : α → α → Bool) (l : List α) :
    List.Perm (jsMergeSort le l) l := by
  induction l using jsMergeSort.induct le with
  | case1 l h => rw [jsMergeSort, if_pos h]
  | case2 l h ih1 ih2 =>
      rw [jsMergeSort, if_neg h]
      refine (jsMerge_perm le _ _).trans ?_
      refine (ih1.append ih2).trans ?_
      rw [List.take_append_drop]

theorem jsMergeSort_length {α : Type} (le : α → α → Bool) (l : List α) :
    (jsMergeSort le l).length = l.length :=
  (jsMergeSort_perm le l).length_eq

theorem jsMergeSort_mem {α : Type} (le : α → α → Bool) (l : List α) (a : α) :
    a ∈ jsMergeSort le l ↔ a ∈ l :=
  (jsMergeSort_perm le l).mem_iff

theorem jsMerge_filter {α : Type} (le : α → α → Bool) (q : α → Bool)
    (hL : ∀ a b, q a = true → le a b = true)
    (hR : ∀ a b, q b = true → le a b = true) (xs ys : List α) :
    (jsMerge le xs ys).filter q = xs.filter q ++ ys.filter q := by
  induction xs, ys using jsMerge.induct le with
  | case1 ys => simp [jsMerge]
  | case2 x xs => simp [jsMerge]
  | case3 x xs y ys h ih =>
      rw [jsMerge, if_pos h]
      by_cases hq : q x = true <;>
        simp [List.filter_cons, hq, ih]
  | case4 x xs y ys h ih =>
      have hqx : q x = false := by
        cases hqx : q x
        · rfl
        · exact absurd (hL x y hqx) (by simpa using h)
      have hqy : q y = false := by
        cases hqy : q y
        · rfl
        · exact absurd (hR x y hqy) (by simpa using h)
      rw [jsMerge, if_neg h]
      simp [List.filter_cons, hqx, hqy, ih]

theorem jsMergeSort_filter {α : Type} (le : α → α → Bool) (q : α → Bool)
    (hL : ∀ a b, q a = true → le a b = true)
    (hR : ∀ a b, q b = true → le a b = true) (l : List α) :
    (jsMergeSort le l).filter q = l.filter q := by
  induction l using jsMergeSort.induct le with
  | case1 l h => rw [jsMergeSort, if_pos h]
  | case2 l h ih1 ih2 =>
      rw [jsMergeSort, if_neg h, jsMerge_filter le q hL hR, ih1, ih2,
        ← List.filter_append, List.take_append_drop]

theorem jsMerge_congr {α : Type} (le le2 : α → α → Bool) (xs ys : List α)
    (h : ∀ x ∈ xs, ∀ y ∈ ys, le x y = le2 x y) :
    jsMerge le xs ys = jsMerge le2 xs ys := by
  induction xs, ys using jsMerge.induct le with
  | case1 ys => simp [jsMerge]
  | case2 x xs => simp [jsMerge]
  | case3 x xs y ys hxy ih =>
      have hagree : le x y = le2 x y :=
        h x (List.mem_cons_self x xs) y (List.mem_cons_self y ys)
      rw [jsMerge, if_pos hxy, jsMerge, if_pos (hagree ▸ hxy)]
      rw [ih fun a ha b hb => h a (List.mem_cons_of_mem x ha) b hb]
  | case4 x xs y ys hxy ih =>
      have hagree : le x y = le2 x y :=
        h x (List.mem_cons_self x xs) y (List.mem_cons_self y ys)
      rw [jsMerge, if_neg hxy, jsMerge, if_neg (hagree ▸ hxy)]
      rw [ih fun a ha b hb => h a ha b (List.mem_cons_of_mem y hb)]

theorem jsMergeSort_congr {α : Type} (le le2 : α → α → Bool) (l : List α)
    (h : ∀ x ∈ l, ∀ y ∈ l, le x y = le2 x y) :
    jsMergeSort le l = jsMergeSort le2 l := by
  induction l using jsMergeSort.induct le with
  | case1 l hl => rw [jsMergeSort, if_pos hl, jsMergeSort, if_pos hl]
  | case2 l hl ih1 ih2 =>
      have htake : ∀ x ∈ l.take (l.length / 2), ∀ y ∈ l.take (l.length / 2),
          le x y = le2 x y :=
        fun x hx y hy =>
          h x (List.take_subset _ _ hx) y (List.take_subset _ _ hy)
      have hdrop : ∀ x ∈ l.drop (l.length / 2), ∀ y ∈ l.drop (l.length / 2),
          le x y = le2 x y :=
        fun x hx y hy =>
          h x (List.drop_subset _ _ hx) y (List.drop_subset _ _ hy)
      rw [jsMergeSort]
      rw [if_neg hl, ih1 htake, ih2 hdrop]
      conv_rhs => rw [jsMergeSort]
      rw [if_neg hl]
      refine jsMerge_congr le le2 _ _ fun x hx y hy => ?_
      exact h x (List.take_subset _ _ ((jsMergeSort_mem le2 _ x).1 hx))
        y (List.drop_subset _ _ ((jsMergeSort_mem le2 _ y).1 hy))

theorem jsMerge_pairwise {α : Type} (le : α → α → Bool)
    (htrans : ∀ a b c, le a b = true → le b c = true → le a c = true)
    (htotal : ∀ a b, le a b = true ∨ le b a = true) (xs ys : List α)
    (hxs : xs.Pairwise (fun a b => le a b = true))
    (hys : ys.Pairwise (fun a b => le a b = true)) :
    (jsMerge le xs ys).Pairwise (fun a b => le a b = true) := by
  induction xs, ys using jsMerge.induct le with
  | case1 ys => simpa [jsMerge] using hys
  | case2 x xs => simpa [jsMerge] using hxs
  | case3 x xs y ys hxy ih =>
      rw [jsMerge, if_pos hxy]
      rw [List.pairwise_cons] at hxs ⊢
      refine ⟨fun b hb => ?_, ih hxs.2 hys⟩
      have hb2 : b ∈ xs ++ (y :: ys) := (jsMerge_perm le xs (y :: ys)).subset hb
      rcases List.mem_append.1 hb2 with hbx | hby
      · exact hxs.1 b hbx
      · rcases List.mem_cons.1 hby with rfl | hby2
        · exact hxy
        · exact htrans x y b hxy ((List.pairwise_cons.1 hys).1 b hby2)
  | case4 x xs y ys hxy ih =>
      have hyx : le y x = true := by
        rcases htotal x y with h | h
        · exact absurd h (by simpa using hxy)
        · exact h
      rw [jsMerge, if_neg hxy]
      rw [List.pairwise_cons] at hys ⊢
      refine ⟨fun b hb => ?_, ih hxs hys.2⟩
      have hb2 : b ∈ (x :: xs) ++ ys := (jsMerge_perm le (x :: xs) ys).subset hb
      rcases List.mem_append.1 hb2 with hbx | hby
      · rcases List.mem_cons.1 hbx with rfl | hbx2
        · exact hyx
        · exact htrans y x b hyx ((List.pairwise_cons.1 hxs).1 b hbx2)
      · exact hys.1 b hby

theorem jsMergeSort_pairwise {α : Type} (le : α → α → Bool)
    (htrans : ∀ a b c, le a b = true → le b c = true → le a c = true)
    (htotal : ∀ a b, le a b = true ∨ le b a = true) (l : List α) :
    (jsMergeSort le l).Pairwise (fun a b => le a b = true) := by
  induction l using jsMergeSort.induct le with
  | case1 l hl =>
      rw [jsMergeSort, if_pos hl]
      match l, hl with
      | [], _ => exact List.Pairwise.nil
      | [a], _ => exact List.pairwise_singleton _ a
  | case2 l hl ih1 ih2 =>
      rw [jsMergeSort, if_neg hl]
      exact jsMerge_pairwise le htrans htotal _ _ ih1 ih2

/-! ## Properties of the per-buyer mapping operations -/

theorem buyersSum_cons (k : String) (v : ℚ) (rest : List (String × ℚ)) :
    buyersSum ((k, v) :: rest) = v + buyersSum rest := by
  simp [buyersSum]

theorem buyerAt_cons (k1 : String) (v1 : ℚ) (rest : List (String × ℚ))
    (b : String) :
    buyerAt ((k1, v1) :: rest) b = if k1 = b then v1 else buyerAt rest b := by
  by_cases h : k1 = b <;> simp [buyerAt, List.find?, h]

theorem buyersSum_addBuyer (m : List (String × ℚ)) (k : String) (v : ℚ) :
    buyersSum (addBuyer m k v) = buyersSum m + v := by
  induction m with
  | nil => simp [addBuyer, buyersSum]
  | cons q rest ih =>
      rcases q with ⟨k1, v1⟩
      by_cases h : k1 = k
      · rw [addBuyer, if_pos h, buyersSum_cons, buyersSum_cons]
        ring
      · rw [addBuyer, if_neg h, buyersSum_cons, buyersSum_cons, ih]
        ring

theorem buyerAt_addBuyer (m : List (String × ℚ)) (k : String) (v : ℚ) (b : String) :
    buyerAt (addBuyer m k v) b = buyerAt m b + (if b = k then v else 0) := by
  induction m with
  | nil =>
      by_cases h : k = b
      · subst h
        simp [addBuyer, buyerAt_cons, buyerAt]
      · have h2 : ¬(b = k) := fun e => h e.symm
        simp [addBuyer, buyerAt_cons, buyerAt, h, h2]
  | cons q rest ih =>
      rcases q with ⟨k1, v1⟩
      by_cases h1 : k1 = k
      · rw [addBuyer, if_pos h1, buyerAt_cons, buyerAt_cons]
        by_cases h2 : k1 = b
        · have hbk : b = k := h2 ▸ h1 ▸ rfl
          rw [if_pos h2, if_pos h2, if_pos hbk]
        · have hbk : ¬(b = k) := fun e => h2 (h1.trans e.symm)
          rw [if_neg h2, if_neg h2, if_neg hbk, add_zero]
      · rw [addBuyer, if_neg h1, buyerAt_cons, buyerAt_cons]
        by_cases h2 : k1 = b
        · have hbk : ¬(b = k) := fun e => h1 (h2.trans e)
          rw [if_pos h2, if_pos h2, if_neg hbk, add_zero]
        · rw [if_neg h2, if_neg h2, ih]

theorem buyersSum_foldl_addBuyer (l : List Sale) (m : List (String × ℚ)) (x : ℚ) :
    buyersSum (l.foldl (fun m2 s => addBuyer m2 s.buyer x) m)
      = buyersSum m + l.length * x := by
  induction l generalizing m with
  | nil => simp
  | cons s l ih =>
      rw [List.foldl_cons, ih, buyersSum_addBuyer, List.length_cons]
      push_cast
      ring

theorem buyerAt_foldl_addBuyer (l : List Sale) (m : List (String × ℚ)) (x : ℚ)
    (b : String) :
    buyerAt (l.foldl (fun m2 s => addBuyer m2 s.buyer x) m) b
      = buyerAt m b + (l.countP (fun s => s.buyer == b) : ℚ) * x := by
  induction l generalizing m with
  | nil => simp
  | cons s l ih =>
      rw [List.foldl_cons, ih, buyerAt_addBuyer, List.countP_cons]
      by_cases hb : s.buyer = b
      · subst hb
        rw [if_pos rfl]
        simp only [beq_self_eq_true, if_true]
        push_cast
        ring
      · have hb2 : ¬(b = s.buyer) := fun h => hb h.symm
        simp [hb, hb2]

theorem buyersSum_eq_zero (m : List (String × ℚ)) (h : ∀ q ∈ m, q.2 = (0 : ℚ)) :
    buyersSum m = 0 := by
  refine List.sum_eq_zero fun x hx => ?_
  rcases List.mem_map.1 hx with ⟨q, hq, rfl⟩
  exact h q hq

theorem setBuyer_zero_values (m : List (String × ℚ)) (k : String)
    (h : ∀ q ∈ m, q.2 = (0 : ℚ)) : ∀ q ∈ setBuyer m k 0, q.2 = (0 : ℚ) := by
  induction m with
  | nil =>
      intro q hq
      rw [setBuyer] at hq
      rcases List.mem_singleton.1 hq with rfl
      rfl
  | cons q0 rest ih =>
      rcases q0 with ⟨k1, v1⟩
      intro q hq
      by_cases hk : k1 = k
      · rw [setBuyer, if_pos hk] at hq
        rcases List.mem_cons.1 hq with rfl | hq2
        · rfl
        · exact h _ (List.mem_cons_of_mem _ hq2)
      · rw [setBuyer, if_neg hk] at hq
        rcases List.mem_cons.1 hq with rfl | hq2
        · exact h _ (List.mem_cons_self _ _)
        · exact ih (fun q2 hq2b => h q2 (List.mem_cons_of_mem _ hq2b)) _ hq2

theorem foldl_setBuyer_zero_values (l : List Sale) (m : List (String × ℚ))
    (h : ∀ q ∈ m, q.2 = (0 : ℚ)) :
    ∀ q ∈ l.foldl (fun m2 s => setBuyer m2 s.buyer 0) m, q.2 = (0 : ℚ) := by
  induction l generalizing m with
  | nil => simpa using h
  | cons s l ih => exact ih _ (setBuyer_zero_values m s.buyer h)

/-! ## Conservation for the standard allocation engine -/

theorem totalPayout_processAllBuyers (sortedSales : List Sale) (p : Payouts)
    (share : ℚ) (h : sortedSales ≠ [] ∨ share = 0) :
    totalPayout (processAllBuyersAllocation sortedSales p share)
      = totalPayout p + share := by
  simp only [processAllBuyersAllocation]
  by_cases hlen : sortedSales.length ≤ 0
  · have hnil : sortedSales = [] := List.length_eq_zero.1 (Nat.le_zero.1 hlen)
    have hz : share = 0 := by
      rcases h with hne | hz
      · exact absurd hnil hne
      · exact hz
    rw [if_pos hlen, hz, add_zero]
  · rw [if_neg hlen]
    have hne : ((sortedSales.length : ℕ) : ℚ) ≠ 0 := by
      have h2 : sortedSales.length ≠ 0 := by omega
      exact_mod_cast h2
    simp only [totalPayout, buyersSum_foldl_addBuyer]
    rw [mul_div_cancel₀ _ hne]
    ring

theorem totalPayout_processGroup (rule : Rule) (sortedSales : List Sale)
    (p : Payouts) (share : ℚ) (hc : rule.count ≠ 0)
    (h : sortedSales ≠ [] ∨ share = 0) :
    totalPayout (processGroupAllocation rule sortedSales p share)
      = totalPayout p + share := by
  have hGlen : (if rule.fromEnd then
        sortedSales.drop (sortedSales.length - rule.count)
      else sortedSales.take rule.count).length
      = min rule.count sortedSales.length := by
    split_ifs with hf
    · rw [List.length_drop]; omega
    · rw [List.length_take]
  simp only [processGroupAllocation]
  rw [hGlen]
  have hmin : min (min rule.count sortedSales.length) rule.count
      = min rule.count sortedSales.length := by omega
  rw [hmin]
  by_cases hnil : sortedSales = []
  · have hz : share = 0 := by
      rcases h with hne | hz
      · exact absurd hnil hne
      · exact hz
    rw [hnil]
    simp [hz]
  · have hlen0 : sortedSales.length ≠ 0 :=
      fun e => hnil (List.length_eq_zero.1 e)
    have hgs0 : min rule.count sortedSales.length ≠ 0 := by omega
    rw [if_neg (by omega : ¬(min rule.count sortedSales.length ≤ 0))]
    simp only [totalPayout, buyersSum_foldl_addBuyer]
    rw [hGlen]
    have hcast : ((min rule.count sortedSales.length : ℕ) : ℚ) ≠ 0 := by
      exact_mod_cast hgs0
    rw [mul_div_cancel₀ _ hcast]
    ring

theorem totalPayout_routeShareFixed (k : String) (rule : Rule)
    (sortedSales : List Sale) (p : Payouts) (share : ℚ)
    (hroute : routableKey k rule) (h : sortedSales ≠ [] ∨ share = 0) :
    totalPayout (routeShareFixed k rule sortedSales p share)
      = totalPayout p + share := by
  unfold routeShareFixed
  split_ifs with h1 h2 h3 h4 h5
  · simp only [totalPayout]; ring
  · simp only [totalPayout]; ring
  · simp only [totalPayout, Option.getD_some]; ring
  · exact totalPayout_processGroup rule sortedSales p share h4 h
  · exact totalPayout_processAllBuyers sortedSales p share h
  · unfold routableKey at hroute; tauto

theorem totalPayout_routeShareRemainder (k : String) (rule : Rule)
    (sortedSales : List Sale) (p : Payouts) (share : ℚ)
    (hroute : routableKey k rule) (h : sortedSales ≠ [] ∨ share = 0) :
    totalPayout (routeShareRemainder k rule sortedSales p share)
      = totalPayout p + share := by
  unfold routeShareRemainder
  split_ifs with h1 h2 h3 h4 h5
  · simp only [totalPayout]; ring
  · simp only [totalPayout]; ring
  · simp only [totalPayout, Option.getD_some]; ring
  · exact totalPayout_processAllBuyers sortedSales p share h
  · exact totalPayout_processGroup rule sortedSales p share h5 h
  · unfold routableKey at hroute; tauto

theorem totalPayout_processFixedPercentages (scheme : Scheme)
    (sortedSales : List Sale) (p : Payouts) (tr : ℚ)
    (hroutes : ∀ kr ∈ scheme, routableKey kr.1 kr.2)
    (h : sortedSales ≠ [] ∨ tr = 0) :
    totalPayout (processFixedPercentages scheme sortedSales p tr)
      = totalPayout p + tr * calculateAllocatedPercentage scheme / 100 := by
  revert hroutes
  induction scheme generalizing p with
  | nil =>
      intro _
      simp [processFixedPercentages, calculateAllocatedPercentage]
  | cons kr rest ih =>
      intro hroutes
      have hroutes2 : ∀ kr2 ∈ rest, routableKey kr2.1 kr2.2 :=
        fun kr2 hm => hroutes kr2 (List.mem_cons_of_mem kr hm)
      rcases hp : kr.2.percentage with _ | pct
      · have ihp := ih (p := p) hroutes2
        simp only [processFixedPercentages, List.foldl_cons, hp,
          calculateAllocatedPercentage, List.filterMap_cons, hp] at ihp ⊢
        exact ihp
      · have hshare : sortedSales ≠ [] ∨ tr * pct / 100 = 0 := by
          rcases h with hne | hz
          · exact Or.inl hne
          · right; rw [hz]; ring
        have hstep := totalPayout_routeShareFixed kr.1 kr.2 sortedSales p
          (tr * pct / 100) (hroutes kr (List.mem_cons_self kr rest)) hshare
        have ihp := ih (p := routeShareFixed kr.1 kr.2 sortedSales p (tr * pct / 100))
          hroutes2
        simp only [processFixedPercentages, List.foldl_cons, hp,
          calculateAllocatedPercentage, List.filterMap_cons, hp] at ihp ⊢
        rw [ihp, hstep, List.sum_cons]
        ring

theorem totalPayout_foldl_routeRemainder (rules : List (String × Rule))
    (sortedSales : List Sale) (p : Payouts) (x : ℚ)
    (hall : ∀ kr ∈ rules, routableKey kr.1 kr.2)
    (hs : sortedSales ≠ [] ∨ x = 0) :
    totalPayout (rules.foldl
        (fun p2 kr => routeShareRemainder kr.1 kr.2 sortedSales p2 x) p)
      = totalPayout p + rules.length * x := by
  revert hall
  induction rules generalizing p with
  | nil => intro _; simp
  | cons kr rest ih =>
      intro hall
      rw [List.foldl_cons,
        ih (p := routeShareRemainder kr.1 kr.2 sortedSales p x)
          (fun kr2 h2 => hall kr2 (List.mem_cons_of_mem _ h2)),
        totalPayout_routeShareRemainder kr.1 kr.2 sortedSales p x
          (hall kr (List.mem_cons_self _ _)) hs, List.length_cons]
      push_cast
      ring

theorem totalPayout_processRemainder (scheme : Scheme)
    (sortedSales : List Sale) (p : Payouts) (tr t : ℚ)
    (hroutes : ∀ kr ∈ scheme, routableKey kr.1 kr.2)
    (hsales : sortedSales ≠ [] ∨ tr = 0)
    (hdisc : t = 100 ∨ scheme.filter (fun kr => kr.2.remainder) ≠ [] ∨
      scheme.any (fun kr => kr.1 = "author") = true)
    (hnn : 0 ≤ tr * (1 - t / 100)) :
    totalPayout (processRemainder scheme sortedSales p tr t)
      = totalPayout p + tr * (1 - t / 100) := by
  simp only [processRemainder]
  by_cases hle : tr * (1 - t / 100) ≤ 0
  · rw [if_pos hle]
    have h0 : tr * (1 - t / 100) = 0 := le_antisymm hle hnn
    rw [h0, add_zero]
  · rw [if_neg hle]
    have hpos : 0 < tr * (1 - t / 100) := not_le.1 hle
    have htr : tr ≠ 0 := by
      intro h0
      rw [h0, zero_mul] at hpos
      exact lt_irrefl 0 hpos
    have ht100 : t ≠ 100 := by
      intro h100
      rw [h100] at hpos
      norm_num at hpos
    have hsorted : sortedSales ≠ [] := hsales.resolve_right htr
    split_ifs with hcase
    · simp only [totalPayout]; ring
    · have hrr : scheme.filter (fun kr => kr.2.remainder) ≠ [] := by
        rcases hdisc with h100 | hne | hauthor
        · exact absurd h100 ht100
        · exact hne
        · intro hnil2
          exact hcase ⟨by rw [hnil2]; rfl, hauthor⟩
      have hlen : (scheme.filter (fun kr => kr.2.remainder)).length ≠ 0 :=
        fun e => hrr (List.length_eq_zero.1 e)
      rw [totalPayout_foldl_routeRemainder _ _ _ _
        (fun kr hm => hroutes kr (List.mem_filter.1 hm).1) (Or.inl hsorted)]
      have hcast : (((scheme.filter (fun kr => kr.2.remainder)).length : ℕ) : ℚ) ≠ 0 := by
        exact_mod_cast hlen
      rw [mul_div_cancel₀ _ hcast]

theorem totalPayout_init (sales : List Sale) :
    totalPayout (Payouts.mk 0 0 none
      ((sortSales sales).foldl (fun m s => setBuyer m s.buyer 0) [])) = 0 := by
  simp only [totalPayout, Option.getD_none]
  rw [buyersSum_eq_zero _ (foldl_setBuyer_zero_values _ [] (by simp))]
  norm_num

/-- C1.  Conservation: for every ledger (with a non-negative unit price)
and every well-formed scheme, the standard allocator's outputs satisfy
author + platform + promotion + Σ(per-buyer entries) = sales.length ×
unitPrice, exactly, over exact arithmetic. -/
theorem conservation_standard (sales : List Sale) (scheme : Scheme)
    (unitPrice : ℚ) (hup : 0 ≤ unitPrice) (hwf : WellFormedScheme scheme) :
    totalPayout (calculate sales scheme ((sales.length : ℚ) * unitPrice))
      = (sales.length : ℚ) * unitPrice := by
  obtain ⟨hpct, hsum, hroutes, hdisc⟩ := hwf
  have hsales : sortSales sales ≠ [] ∨ (sales.length : ℚ) * unitPrice = 0 := by
    rcases hn : sales with _ | ⟨s, rest⟩
    · right; simp
    · left
      intro hnil
      have hl := jsMergeSort_length jsLe (s :: rest)
      rw [show jsMergeSort jsLe (s :: rest) = sortSales (s :: rest) from rfl,
        hnil] at hl
      simp at hl
  have hnn : 0 ≤ ((sales.length : ℚ) * unitPrice) *
      (1 - calculateAllocatedPercentage scheme / 100) := by
    apply mul_nonneg (mul_nonneg (Nat.cast_nonneg _) hup)
    linarith
  simp only [calculate]
  rw [totalPayout_processRemainder _ _ _ _ _ hroutes hsales hdisc hnn,
    totalPayout_processFixedPercentages _ _ _ _ hroutes hsales,
    totalPayout_init]
  ring

/-- Witness for C1 at a concrete ledger and scheme. -/
theorem conservation_standard_witness :
    totalPayout (calculate [{ buyer := "x" }, { buyer := "y" }]
        [("author", { percentage := some 60 }),
         ("platform", { percentage := some 20 }),
         ("allBuyers", { remainder := true })]
        ((([{ buyer := "x" }, { buyer := "y" }] : List Sale).length : ℚ) * 100))
      = (([{ buyer := "x" }, { buyer := "y" }] : List Sale).length : ℚ) * 100 := by
  refine conservation_standard _ _ 100 (by norm_num) ⟨?_, ?_, ?_, ?_⟩
  · intro kr hkr pct hp
    simp only [List.mem_cons, List.not_mem_nil, or_false] at hkr
    rcases hkr with rfl | rfl | rfl <;> simp at hp <;> rw [← hp] <;> norm_num
  · simp [calculateAllocatedPercentage, List.filterMap]
    norm_num
  · decide
  · exact Or.inr (Or.inl (by decide))

/-! ## The remainder pass routing (C2) -/

theorem routeShareRemainder_eq_spec (k : String) (rule : Rule)
    (sortedSales : List Sale) (p : Payouts) (share : ℚ) :
    routeShareRemainder k rule sortedSales p share
      = routeShareRemainderSpec k rule sortedSales p share := by
  unfold routeShareRemainder routeShareRemainderSpec routeShareFixed
  split_ifs <;> first | rfl | tauto

/-- C2 counterexample: a remainder-flagged rule whose key starts with
"buyers" and which also carries a `count` is routed to all buyers by the
remainder pass, but a percentage share under the same key/rule would be
routed to the count-group by the fixed-percentage pass, so the remainder
pass does not route "exactly as" the fixed-percentage pass. -/
theorem remainder_routing_counterexample :
    processRemainder [("buyersGroup", { count := 1, remainder := true })]
        [{ buyer := "b1" }, { buyer := "b2" }]
        (Payouts.mk 0 0 none [("b1", 0), ("b2", 0)]) 100 0
      ≠ processRemainderClaimed [("buyersGroup", { count := 1, remainder := true })]
        [{ buyer := "b1" }, { buyer := "b2" }]
        (Payouts.mk 0 0 none [("b1", 0), ("b2", 0)]) 100 0 := by
  have hpre : keyStartsWith "buyersGroup" "buyers" = true := by decide
  have hna : ¬("buyersGroup" = "author") := by decide
  have hnp : ¬("buyersGroup" = "platform") := by decide
  have hnr : ¬("buyersGroup" = "promotion") := by decide
  have hb12 : ¬("b1" = "b2") := by decide
  have hb21 : ¬("b2" = "b1") := by decide
  have h1 : processRemainder [("buyersGroup", { count := 1, remainder := true })]
      [{ buyer := "b1" }, { buyer := "b2" }]
      (Payouts.mk 0 0 none [("b1", 0), ("b2", 0)]) 100 0
      = Payouts.mk 0 0 none [("b1", 50), ("b2", 50)] := by
    norm_num [processRemainder, routeShareRemainder, processAllBuyersAllocation,
      hpre, hna, hnp, hnr, hb12, hb21, addBuyer, List.filter_cons,
      List.filter_nil, List.foldl_cons, List.foldl_nil, List.length_cons,
      List.length_nil]
  have h2 : processRemainderClaimed
      [("buyersGroup", { count := 1, remainder := true })]
      [{ buyer := "b1" }, { buyer := "b2" }]
      (Payouts.mk 0 0 none [("b1", 0), ("b2", 0)]) 100 0
      = Payouts.mk 0 0 none [("b1", 100), ("b2", 0)] := by
    norm_num [processRemainderClaimed, routeShareFixed, processGroupAllocation,
      hna, hnp, hnr, hb12, hb21, addBuyer, List.filter_cons, List.filter_nil,
      List.foldl_cons, List.foldl_nil, List.length_cons, List.length_nil,
      List.take_succ_cons, List.take_zero]
  rw [h1, h2]
  simp only [Payouts.mk.injEq, List.cons.injEq, Prod.mk.injEq, ne_eq]
  norm_num

/-- C2 (amended).  Whenever the remainder is positive: with no
remainder-flagged rule but an `author` key, the whole remainder goes to
the author; otherwise the remainder is split evenly over the
remainder-flagged rules, each equal share routed as in the
fixed-percentage pass except that an all-buyers key carrying a `count`
routes to all buyers rather than to its count-group. -/
theorem remainder_routing_amended (scheme : Scheme) (sortedSales : List Sale)
    (payouts : Payouts) (tr t : ℚ) (hrem : 0 < tr * (1 - t / 100)) :
    processRemainder scheme sortedSales payouts tr t
      = if (scheme.filter (fun kr => kr.2.remainder)).length = 0 ∧
            scheme.any (fun kr => kr.1 = "author") = true then
          { payouts with author := payouts.author + tr * (1 - t / 100) }
        else
          (scheme.filter (fun kr => kr.2.remainder)).foldl
            (fun p kr => routeShareRemainderSpec kr.1 kr.2 sortedSales p
              (tr * (1 - t / 100) /
                ((scheme.filter (fun kr => kr.2.remainder)).length : ℚ)))
            payouts := by
  simp only [processRemainder]
  rw [if_neg (not_le.2 hrem)]
  have hfun : (fun (p2 : Payouts) (kr : String × Rule) =>
        routeShareRemainder kr.1 kr.2 sortedSales p2
          (tr * (1 - t / 100) /
            ((scheme.filter (fun kr => kr.2.remainder)).length : ℚ)))
      = (fun (p2 : Payouts) (kr : String × Rule) =>
        routeShareRemainderSpec kr.1 kr.2 sortedSales p2
          (tr * (1 - t / 100) /
            ((scheme.filter (fun kr => kr.2.remainder)).length : ℚ))) := by
    funext p2 kr
    exact routeShareRemainder_eq_spec kr.1 kr.2 sortedSales p2 _
  rw [hfun]

/-- Witness for C2 (amended) at a concrete scheme with one
remainder-flagged `platform` rule. -/
theorem remainder_routing_amended_witness :
    processRemainder [("platform", { remainder := true })] []
        (Payouts.mk 0 0 none []) 200 50
      = if (([("platform", ({ remainder := true } : Rule))] : Scheme).filter
              (fun kr => kr.2.remainder)).length = 0 ∧
            ([("platform", ({ remainder := true } : Rule))] : Scheme).any
              (fun kr => kr.1 = "author") = true then
          { Payouts.mk 0 0 none [] with
            author := (Payouts.mk 0 0 none []).author + 200 * (1 - 50 / 100) }
        else
          (([("platform", ({ remainder := true } : Rule))] : Scheme).filter
              (fun kr => kr.2.remainder)).foldl
            (fun p kr => routeShareRemainderSpec kr.1 kr.2 [] p
              (200 * (1 - 50 / 100) /
                ((([("platform", ({ remainder := true } : Rule))] : Scheme).filter
                    (fun kr => kr.2.remainder)).length : ℚ)))
            (Payouts.mk 0 0 none []) :=
  remainder_routing_amended _ _ _ 200 50 (by norm_num)

/-! ## Group allocation (C5) -/

theorem groupLength (rule : Rule) (sortedSales : List Sale) :
    (if rule.fromEnd then sortedSales.drop (sortedSales.length - rule.count)
      else sortedSales.take rule.count).length
      = min rule.count sortedSales.length := by
  split_ifs with hf
  · rw [List.length_drop]; omega
  · rw [List.length_take]

/-- C5.  Group allocation: the selected group is the first `count` sales
(the last `count` when `fromEnd`), `groupSize = min(count, sales
available)`; a zero `groupSize` discards the share with no division by
zero; otherwise every buyer receives exactly `share/groupSize` per
occurrence in the window, added to what it already holds, and sales
outside the window contribute exactly 0. -/
theorem group_allocation_spec (rule : Rule) (sortedSales : List Sale)
    (payouts : Payouts) (share : ℚ) (b : String) (hc : rule.count ≠ 0) :
    (min rule.count sortedSales.length = 0 →
        processGroupAllocation rule sortedSales payouts share = payouts)
    ∧ (min rule.count sortedSales.length ≠ 0 →
        buyerAt (processGroupAllocation rule sortedSales payouts share).buyers b
          = buyerAt payouts.buyers b
            + ((if rule.fromEnd then
                  sortedSales.drop (sortedSales.length - rule.count)
                else sortedSales.take rule.count).countP
                  (fun s => s.buyer == b) : ℚ)
              * (share / ((min rule.count sortedSales.length : ℕ) : ℚ))) := by
  have hmin : min (min rule.count sortedSales.length) rule.count
      = min rule.count sortedSales.length := by omega
  constructor
  · intro h0
    simp only [processGroupAllocation]
    rw [groupLength, hmin, if_pos (by omega)]
  · intro h0
    simp only [processGroupAllocation]
    rw [groupLength, hmin, if_neg (by omega)]
    exact buyerAt_foldl_addBuyer _ _ _ b

/-- Witness for C5 at a first-2-of-3 group rule. -/
theorem group_allocation_spec_witness :
    (min ({ percentage := some 30, count := 2 } : Rule).count
        ([{ buyer := "b1" }, { buyer := "b2" }, { buyer := "b3" }] : List Sale).length = 0 →
      processGroupAllocation { percentage := some 30, count := 2 }
          [{ buyer := "b1" }, { buyer := "b2" }, { buyer := "b3" }]
          (Payouts.mk 0 0 none [("b1", 0), ("b2", 0), ("b3", 0)]) 60
        = Payouts.mk 0 0 none [("b1", 0), ("b2", 0), ("b3", 0)])
    ∧ (min ({ percentage := some 30, count := 2 } : Rule).count
        ([{ buyer := "b1" }, { buyer := "b2" }, { buyer := "b3" }] : List Sale).length ≠ 0 →
      buyerAt (processGroupAllocation { percentage := some 30, count := 2 }
          [{ buyer := "b1" }, { buyer := "b2" }, { buyer := "b3" }]
          (Payouts.mk 0 0 none [("b1", 0), ("b2", 0), ("b3", 0)]) 60).buyers "b1"
        = buyerAt (Payouts.mk 0 0 none [("b1", 0), ("b2", 0), ("b3", 0)]).buyers "b1"
          + ((if ({ percentage := some 30, count := 2 } : Rule).fromEnd then
                ([{ buyer := "b1" }, { buyer := "b2" }, { buyer := "b3" }] : List Sale).drop
                  (([{ buyer := "b1" }, { buyer := "b2" }, { buyer := "b3" }] : List Sale).length
                    - ({ percentage := some 30, count := 2 } : Rule).count)
              else ([{ buyer := "b1" }, { buyer := "b2" }, { buyer := "b3" }] : List Sale).take
                  ({ percentage := some 30, count := 2 } : Rule).count).countP
                (fun s => s.buyer == "b1") : ℚ)
            * (60 / ((min ({ percentage := some 30, count := 2 } : Rule).count
                ([{ buyer := "b1" }, { buyer := "b2" }, { buyer := "b3" }] : List Sale).length : ℕ) : ℚ))) :=
  group_allocation_spec { percentage := some 30, count := 2 }
    [{ buyer := "b1" }, { buyer := "b2" }, { buyer := "b3" }]
    (Payouts.mk 0 0 none [("b1", 0), ("b2", 0), ("b3", 0)]) 60 "b1" (by decide)

/-! ## Buy-to-earn simulator -/

theorem bteTokenStep_earnings (g ss ns : ℚ) (spec cs : ℤ) (st : BteState) (i : ℤ) :
    (bteTokenStep g ss ns spec cs st i).tokenEarnings
      = fun j => if j = i then
          st.tokenEarnings i
            + (ss + if decide (g ≤ st.tokenEarnings i) = true then 0 else ns)
        else st.tokenEarnings j := by
  simp only [bteTokenStep]
  split_ifs <;> rfl

theorem bteTokenStep_creator (g ss ns : ℚ) (spec cs : ℤ) (st : BteState) (i : ℤ) :
    (bteTokenStep g ss ns spec cs st i).creatorRevenue = st.creatorRevenue := by
  simp only [bteTokenStep]
  split_ifs <;> rfl

theorem bteTokenStep_platform (g ss ns : ℚ) (spec cs : ℤ) (st : BteState) (i : ℤ) :
    (bteTokenStep g ss ns spec cs st i).platformRevenue = st.platformRevenue := by
  simp only [bteTokenStep]
  split_ifs <;> rfl

theorem bteTokenStep_promotion (g ss ns : ℚ) (spec cs : ℤ) (st : BteState) (i : ℤ) :
    (bteTokenStep g ss ns spec cs st i).promotionRevenue = st.promotionRevenue := by
  simp only [bteTokenStep]
  split_ifs <;> rfl

theorem foldl_tokenStep_creator (g ss ns : ℚ) (spec cs : ℤ) (l : List ℤ)
    (st : BteState) :
    (l.foldl (bteTokenStep g ss ns spec cs) st).creatorRevenue
      = st.creatorRevenue := by
  induction l generalizing st with
  | nil => rfl
  | cons i l ih =>
      rw [List.foldl_cons, ih, bteTokenStep_creator]

theorem foldl_tokenStep_platform (g ss ns : ℚ) (spec cs : ℤ) (l : List ℤ)
    (st : BteState) :
    (l.foldl (bteTokenStep g ss ns spec cs) st).platformRevenue
      = st.platformRevenue := by
  induction l generalizing st with
  | nil => rfl
  | cons i l ih =>
      rw [List.foldl_cons, ih, bteTokenStep_platform]

theorem foldl_tokenStep_promotion (g ss ns : ℚ) (spec cs : ℤ) (l : List ℤ)
    (st : BteState) :
    (l.foldl (bteTokenStep g ss ns spec cs) st).promotionRevenue
      = st.promotionRevenue := by
  induction l generalizing st with
  | nil => rfl
  | cons i l ih =>
      rw [List.foldl_cons, ih, bteTokenStep_promotion]

theorem bteSaleStep_creator (p : BteParams) (up : ℚ) (cs : ℤ) (st : BteState) :
    (bteSaleStep p up cs st).creatorRevenue
      = st.creatorRevenue + up * (p.creatorShare / 100) := by
  simp only [bteSaleStep]
  split_ifs
  all_goals first
  | rw [foldl_tokenStep_creator]
  | rfl

theorem bteSaleStep_platform (p : BteParams) (up : ℚ) (cs : ℤ) (st : BteState) :
    (bteSaleStep p up cs st).platformRevenue
      = st.platformRevenue + up * (p.platformShare / 100) := by
  simp only [bteSaleStep]
  split_ifs
  all_goals first
  | rw [foldl_tokenStep_platform]
  | rfl

theorem bteSaleStep_promotion (p : BteParams) (up : ℚ) (cs : ℤ) (st : BteState) :
    (bteSaleStep p up cs st).promotionRevenue
      = st.promotionRevenue + up * (p.promotionShare / 100) := by
  simp only [bteSaleStep]
  split_ifs
  all_goals first
  | rw [foldl_tokenStep_promotion]
  | rfl

theorem foldl_saleStep_creator (p : BteParams) (up : ℚ) (l : List ℤ)
    (st : BteState) :
    (l.foldl (fun st2 cs => bteSaleStep p up cs st2) st).creatorRevenue
      = st.creatorRevenue + l.length * (up * (p.creatorShare / 100)) := by
  induction l generalizing st with
  | nil => simp
  | cons cs l ih =>
      rw [List.foldl_cons, ih, bteSaleStep_creator, List.length_cons]
      push_cast
      ring

theorem foldl_saleStep_platform (p : BteParams) (up : ℚ) (l : List ℤ)
    (st : BteState) :
    (l.foldl (fun st2 cs => bteSaleStep p up cs st2) st).platformRevenue
      = st.platformRevenue + l.length * (up * (p.platformShare / 100)) := by
  induction l generalizing st with
  | nil => simp
  | cons cs l ih =>
      rw [List.foldl_cons, ih, bteSaleStep_platform, List.length_cons]
      push_cast
      ring

theorem foldl_saleStep_promotion (p : BteParams) (up : ℚ) (l : List ℤ)
    (st : BteState) :
    (l.foldl (fun st2 cs => bteSaleStep p up cs st2) st).promotionRevenue
      = st.promotionRevenue + l.length * (up * (p.promotionShare / 100)) := by
  induction l generalizing st with
  | nil => simp
  | cons cs l ih =>
      rw [List.foldl_cons, ih, bteSaleStep_promotion, List.length_cons]
      push_cast
      ring

theorem intsFromTo_length (a b : ℤ) :
    (intsFromTo a b).length = (b + 1 - a).toNat := by
  rw [intsFromTo, List.length_map, List.length_range]

/-- C4.  Short-circuit: with fewer sales than prepayers the simulator
returns creator = initialInvestment, everything else zero/absent, without
running the per-sale loop. -/
theorem bte_short_circuit (sales : List Sale) (unitPrice : ℚ) (p : BteParams)
    (h : (sales.length : ℤ) < numPrepayers p unitPrice) :
    calculateBuyToEarnPayouts sales unitPrice p
      = BteResult.mk p.initialInvestment 0 0 0 (numPrepayers p unitPrice) 0 none
          0 0 0 (paybackGoalQ p unitPrice) p.initialInvestment := by
  simp only [calculateBuyToEarnPayouts]
  rw [if_pos h]

/-- Witness for C4: 500-per-unit pricing with a 300000 investment needs
600 prepayers; an empty ledger short-circuits. -/
theorem bte_short_circuit_witness :
    calculateBuyToEarnPayouts [] 500
        (BteParams.mk 300000 10 10 10 2 60 100)
      = BteResult.mk (BteParams.mk 300000 10 10 10 2 60 100).initialInvestment
          0 0 0 (numPrepayers (BteParams.mk 300000 10 10 10 2 60 100) 500) 0 none
          0 0 0 (paybackGoalQ (BteParams.mk 300000 10 10 10 2 60 100) 500)
          (BteParams.mk 300000 10 10 10 2 60 100).initialInvestment :=
  bte_short_circuit [] 500 (BteParams.mk 300000 10 10 10 2 60 100)
    (by norm_num [numPrepayers])

/-- C6.  Unconditional per-sale stakeholder increments: with enough sales,
creator = initialInvestment + (sales − prepayers) × unitPrice ×
creatorShare/100, and platform and promotion accumulate their per-sale
share from zero, regardless of payback state. -/
theorem bte_stakeholder_totals (sales : List Sale) (unitPrice : ℚ)
    (p : BteParams) (h : numPrepayers p unitPrice ≤ (sales.length : ℤ)) :
    (calculateBuyToEarnPayouts sales unitPrice p).creator
        = p.initialInvestment
          + ((sales.length : ℚ) - ((numPrepayers p unitPrice : ℤ) : ℚ))
            * (unitPrice * (p.creatorShare / 100))
    ∧ (calculateBuyToEarnPayouts sales unitPrice p).platform
        = ((sales.length : ℚ) - ((numPrepayers p unitPrice : ℤ) : ℚ))
          * (unitPrice * (p.platformShare / 100))
    ∧ (calculateBuyToEarnPayouts sales unitPrice p).promotion
        = ((sales.length : ℚ) - ((numPrepayers p unitPrice : ℤ) : ℚ))
          * (unitPrice * (p.promotionShare / 100)) := by
  have hnlt : ¬((sales.length : ℤ) < numPrepayers p unitPrice) := not_lt.2 h
  have hlen : (((intsFromTo (numPrepayers p unitPrice + 1)
        (sales.length : ℤ)).length : ℕ) : ℚ)
      = (sales.length : ℚ) - ((numPrepayers p unitPrice : ℤ) : ℚ) := by
    rw [intsFromTo_length]
    have he : (sales.length : ℤ) + 1 - (numPrepayers p unitPrice + 1)
        = (sales.length : ℤ) - numPrepayers p unitPrice := by ring
    rw [he]
    have h2 : (0 : ℤ) ≤ (sales.length : ℤ) - numPrepayers p unitPrice := by omega
    have h3 := Int.toNat_of_nonneg h2
    have h4 : ((((sales.length : ℤ) - numPrepayers p unitPrice).toNat : ℕ) : ℚ)
        = (((sales.length : ℤ) - numPrepayers p unitPrice : ℤ) : ℚ) := by
      exact_mod_cast congrArg (fun z : ℤ => (z : ℚ)) h3
    rw [h4]
    push_cast
    ring
  refine ⟨?_, ?_, ?_⟩ <;> simp only [calculateBuyToEarnPayouts, if_neg hnlt]
  · rw [foldl_saleStep_creator, hlen]
    simp [bteInitState]
  · rw [foldl_saleStep_platform, hlen]
    simp [bteInitState]
  · rw [foldl_saleStep_promotion, hlen]
    simp [bteInitState]

/-- Witness for C6 at 4 sales, 2 prepayers. -/
theorem bte_stakeholder_totals_witness :
    (calculateBuyToEarnPayouts
        [{ buyer := "a" }, { buyer := "b" }, { buyer := "c" }, { buyer := "d" }]
        500 (BteParams.mk 1000 10 10 10 2 60 1)).creator
        = (BteParams.mk 1000 10 10 10 2 60 1).initialInvestment
          + ((([{ buyer := "a" }, { buyer := "b" }, { buyer := "c" },
                { buyer := "d" }] : List Sale).length : ℚ)
              - ((numPrepayers (BteParams.mk 1000 10 10 10 2 60 1) 500 : ℤ) : ℚ))
            * (500 * ((BteParams.mk 1000 10 10 10 2 60 1).creatorShare / 100))
    ∧ (calculateBuyToEarnPayouts
        [{ buyer := "a" }, { buyer := "b" }, { buyer := "c" }, { buyer := "d" }]
        500 (BteParams.mk 1000 10 10 10 2 60 1)).platform
        = ((([{ buyer := "a" }, { buyer := "b" }, { buyer := "c" },
              { buyer := "d" }] : List Sale).length : ℚ)
            - ((numPrepayers (BteParams.mk 1000 10 10 10 2 60 1) 500 : ℤ) : ℚ))
          * (500 * ((BteParams.mk 1000 10 10 10 2 60 1).platformShare / 100))
    ∧ (calculateBuyToEarnPayouts
        [{ buyer := "a" }, { buyer := "b" }, { buyer := "c" }, { buyer := "d" }]
        500 (BteParams.mk 1000 10 10 10 2 60 1)).promotion
        = ((([{ buyer := "a" }, { buyer := "b" }, { buyer := "c" },
              { buyer := "d" }] : List Sale).length : ℚ)
            - ((numPrepayers (BteParams.mk 1000 10 10 10 2 60 1) 500 : ℤ) : ℚ))
          * (500 * ((BteParams.mk 1000 10 10 10 2 60 1).promotionShare / 100)) :=
  bte_stakeholder_totals _ 500 (BteParams.mk 1000 10 10 10 2 60 1)
    (by norm_num [numPrepayers])

theorem bteTokenStep_earnings_le (g ss ns : ℚ) (hss : 0 ≤ ss) (hns : 0 ≤ ns)
    (spec cs : ℤ) (st : BteState) (i j : ℤ) :
    st.tokenEarnings j ≤ (bteTokenStep g ss ns spec cs st i).tokenEarnings j := by
  simp only [bteTokenStep_earnings]
  by_cases hj : j = i
  · subst hj
    rw [if_pos rfl]
    have hearn : 0 ≤ ss + if decide (g ≤ st.tokenEarnings j) = true then 0 else ns := by
      split_ifs
      · simpa using hss
      · exact add_nonneg hss hns
    linarith
  · rw [if_neg hj]

theorem foldl_tokenStep_earnings_le (g ss ns : ℚ) (hss : 0 ≤ ss) (hns : 0 ≤ ns)
    (spec cs : ℤ) (l : List ℤ) (st : BteState) (j : ℤ) :
    st.tokenEarnings j ≤ (l.foldl (bteTokenStep g ss ns spec cs) st).tokenEarnings j := by
  induction l generalizing st with
  | nil => exact le_refl _
  | cons i l ih =>
      rw [List.foldl_cons]
      exact le_trans (bteTokenStep_earnings_le g ss ns hss hns spec cs st i j) (ih _)

theorem bteSaleStep_earnings_le (p : BteParams) (up : ℚ)
    (h1 : p.creatorShare + p.platformShare + p.promotionShare ≤ 100)
    (h2 : 0 ≤ p.nonPaybackPoolSharePercent)
    (h3 : p.nonPaybackPoolSharePercent ≤ 100)
    (h4 : 0 ≤ up) (cs : ℤ) (st : BteState) (j : ℤ) :
    st.tokenEarnings j ≤ (bteSaleStep p up cs st).tokenEarnings j := by
  have hbs : 0 ≤ buyersShareQ p := by
    simp only [buyersShareQ]
    linarith
  have hba : 0 ≤ up * (buyersShareQ p / 100) :=
    mul_nonneg h4 (div_nonneg hbs (by norm_num))
  simp only [bteSaleStep]
  split_ifs with hN hcnt
  · have hcast : (0 : ℚ) ≤ ((cs - 1 : ℤ) : ℚ) := by
      exact_mod_cast le_of_lt hN
    have hss : 0 ≤ up * (buyersShareQ p / 100)
        * ((100 - p.nonPaybackPoolSharePercent) / 100) / ((cs - 1 : ℤ) : ℚ) :=
      div_nonneg (mul_nonneg hba (div_nonneg (by linarith) (by norm_num))) hcast
    exact foldl_tokenStep_earnings_le _ _ _ hss
      (div_nonneg (mul_nonneg hba (div_nonneg h2 (by norm_num)))
        (Nat.cast_nonneg _)) _ _ _ _ j
  · have hcast : (0 : ℚ) ≤ ((cs - 1 : ℤ) : ℚ) := by
      exact_mod_cast le_of_lt hN
    have hss : 0 ≤ up * (buyersShareQ p / 100)
        * ((100 - p.nonPaybackPoolSharePercent) / 100) / ((cs - 1 : ℤ) : ℚ) :=
      div_nonneg (mul_nonneg hba (div_nonneg (by linarith) (by norm_num))) hcast
    exact foldl_tokenStep_earnings_le _ _ _ hss (le_refl 0) _ _ _ _ j
  · exact le_refl _

theorem foldl_saleStep_earnings_le (p : BteParams) (up : ℚ)
    (h1 : p.creatorShare + p.platformShare + p.promotionShare ≤ 100)
    (h2 : 0 ≤ p.nonPaybackPoolSharePercent)
    (h3 : p.nonPaybackPoolSharePercent ≤ 100)
    (h4 : 0 ≤ up) (l : List ℤ) (st : BteState) (j : ℤ) :
    st.tokenEarnings j
      ≤ (l.foldl (fun st2 cs => bteSaleStep p up cs st2) st).tokenEarnings j := by
  induction l generalizing st with
  | nil => exact le_refl _
  | cons cs l ih =>
      rw [List.foldl_cons]
      exact le_trans (bteSaleStep_earnings_le p up h1 h2 h3 h4 cs st j) (ih _)

/-- C3.  Monotonic payback: under the parameter preconditions, every
token's cumulative earnings are nondecreasing from round to round of the
simulation; in particular once they reach `paybackGoal` they never drop
below it in a later round. -/
theorem bte_monotonic_payback (p : BteParams) (unitPrice : ℚ) (sales : List Sale)
    (h1 : p.creatorShare + p.platformShare + p.promotionShare ≤ 100)
    (h2 : 0 ≤ p.nonPaybackPoolSharePercent)
    (h3 : p.nonPaybackPoolSharePercent ≤ 100)
    (h4 : 0 < unitPrice) (k1 k2 : ℕ) (hk : k1 ≤ k2) (i : ℤ) :
    (((intsFromTo (numPrepayers p unitPrice + 1) (sales.length : ℤ)).take k1).foldl
        (fun st cs => bteSaleStep p unitPrice cs st) (bteInitState p)).tokenEarnings i
      ≤ (((intsFromTo (numPrepayers p unitPrice + 1) (sales.length : ℤ)).take k2).foldl
        (fun st cs => bteSaleStep p unitPrice cs st) (bteInitState p)).tokenEarnings i
    ∧ (paybackGoalQ p unitPrice
        ≤ (((intsFromTo (numPrepayers p unitPrice + 1) (sales.length : ℤ)).take k1).foldl
            (fun st cs => bteSaleStep p unitPrice cs st) (bteInitState p)).tokenEarnings i →
      paybackGoalQ p unitPrice
        ≤ (((intsFromTo (numPrepayers p unitPrice + 1) (sales.length : ℤ)).take k2).foldl
            (fun st cs => bteSaleStep p unitPrice cs st) (bteInitState p)).tokenEarnings i) := by
  have hmain :
      (((intsFromTo (numPrepayers p unitPrice + 1) (sales.length : ℤ)).take k1).foldl
          (fun st cs => bteSaleStep p unitPrice cs st) (bteInitState p)).tokenEarnings i
        ≤ (((intsFromTo (numPrepayers p unitPrice + 1) (sales.length : ℤ)).take k2).foldl
          (fun st cs => bteSaleStep p unitPrice cs st) (bteInitState p)).tokenEarnings i := by
    have htk : (intsFromTo (numPrepayers p unitPrice + 1) (sales.length : ℤ)).take k1
        = ((intsFromTo (numPrepayers p unitPrice + 1) (sales.length : ℤ)).take k2).take k1 := by
      rw [List.take_take, min_eq_left hk]
    rw [htk]
    conv_rhs => rw [← List.take_append_drop k1
      ((intsFromTo (numPrepayers p unitPrice + 1) (sales.length : ℤ)).take k2)]
    rw [List.foldl_append]
    exact foldl_saleStep_earnings_le p unitPrice h1 h2 h3 (le_of_lt h4) _ _ i
  exact ⟨hmain, fun hg => le_trans hg hmain⟩

/-- Witness for C3 comparing rounds 1 and 2 at a small concrete ledger. -/
theorem bte_monotonic_payback_witness :
    (((intsFromTo (numPrepayers (BteParams.mk 1000 10 10 10 2 60 1) 500 + 1)
        (([{ buyer := "a" }, { buyer := "b" }, { buyer := "c" },
          { buyer := "d" }] : List Sale).length : ℤ)).take 1).foldl
        (fun st cs => bteSaleStep (BteParams.mk 1000 10 10 10 2 60 1) 500 cs st)
        (bteInitState (BteParams.mk 1000 10 10 10 2 60 1))).tokenEarnings 1
      ≤ (((intsFromTo (numPrepayers (BteParams.mk 1000 10 10 10 2 60 1) 500 + 1)
        (([{ buyer := "a" }, { buyer := "b" }, { buyer := "c" },
          { buyer := "d" }] : List Sale).length : ℤ)).take 2).foldl
        (fun st cs => bteSaleStep (BteParams.mk 1000 10 10 10 2 60 1) 500 cs st)
        (bteInitState (BteParams.mk 1000 10 10 10 2 60 1))).tokenEarnings 1
    ∧ (paybackGoalQ (BteParams.mk 1000 10 10 10 2 60 1) 500
        ≤ (((intsFromTo (numPrepayers (BteParams.mk 1000 10 10 10 2 60 1) 500 + 1)
            (([{ buyer := "a" }, { buyer := "b" }, { buyer := "c" },
              { buyer := "d" }] : List Sale).length : ℤ)).take 1).foldl
            (fun st cs => bteSaleStep (BteParams.mk 1000 10 10 10 2 60 1) 500 cs st)
            (bteInitState (BteParams.mk 1000 10 10 10 2 60 1))).tokenEarnings 1 →
      paybackGoalQ (BteParams.mk 1000 10 10 10 2 60 1) 500
        ≤ (((intsFromTo (numPrepayers (BteParams.mk 1000 10 10 10 2 60 1) 500 + 1)
            (([{ buyer := "a" }, { buyer := "b" }, { buyer := "c" },
              { buyer := "d" }] : List Sale).length : ℤ)).take 2).foldl
            (fun st cs => bteSaleStep (BteParams.mk 1000 10 10 10 2 60 1) 500 cs st)
            (bteInitState (BteParams.mk 1000 10 10 10 2 60 1))).tokenEarnings 1) :=
  bte_monotonic_payback (BteParams.mk 1000 10 10 10 2 60 1) 500 _
    (by norm_num) (by norm_num) (by norm_num) (by norm_num) 1 2 (by norm_num) 1

/-- C10.  The buy-to-earn result depends only on the ledger's length: the
per-sale simulation never reads the content of any sale record. -/
theorem bte_length_only (s1 s2 : List Sale) (unitPrice : ℚ) (p : BteParams)
    (h : s1.length = s2.length) :
    calculateBuyToEarnPayouts s1 unitPrice p
      = calculateBuyToEarnPayouts s2 unitPrice p := by
  simp only [calculateBuyToEarnPayouts, h]

/-- Witness for C10: two ledgers of equal length with entirely different
buyers and timestamps. -/
theorem bte_length_only_witness :
    calculateBuyToEarnPayouts
        [{ buyer := "a", timestamp := some 1 }, { buyer := "b" }] 500
        (BteParams.mk 1000 10 10 10 2 60 1)
      = calculateBuyToEarnPayouts
        [{ buyer := "c", timestamp := some 5 }, { buyer := "d", timestamp := some 2 }] 500
        (BteParams.mk 1000 10 10 10 2 60 1) :=
  bte_length_only _ _ 500 (BteParams.mk 1000 10 10 10 2 60 1) rfl

/-! ## Payback estimator (C9) -/

/-- C9 counterexample: the returned `roi` is the formula value rounded to
two decimal digits (`toFixed(2)`), so with `paybackRatio = 4/3` it is
33.33, not the exact `100/3` the claim's formula gives. -/
theorem estimate_roi_counterexample :
    (estimateTokenPayback (fun _ => 0) 1 3 (4 / 3) 1 1).roi
      ≠ 3 * (4 / 3) / 3 * 100 - 100 := by
  have h : (estimateTokenPayback (fun _ => 0) 1 3 (4 / 3) 1 1).roi = 3333 / 100 := by
    norm_num [estimateTokenPayback, roundTo2, round_eq]
  rw [h]
  norm_num

/-- C9 (amended).  For every admissible input (and every value of the
abstract `log10`), the estimator returns `accumulatedEarnings = unitPrice
× paybackRatio`, `roi` equal to `(accumulatedEarnings/unitPrice × 100) −
100` rounded to two decimals, and a `paybackSale` of at least
`tokenPosition + 100`. -/
theorem estimate_payback_spec (log10 : ℚ → ℚ)
    (tokenNumber tokenPrice paybackRatio nonPaybackPoolPercent buyersShare : ℚ)
    (h1 : 1 ≤ tokenNumber) (h2 : 0 < tokenPrice) (h3 : 1 ≤ paybackRatio)
    (h4 : 0 < nonPaybackPoolPercent) (h5 : nonPaybackPoolPercent ≤ 1)
    (h6 : 0 < buyersShare) (h7 : buyersShare ≤ 1) :
    (estimateTokenPayback log10 tokenNumber tokenPrice paybackRatio
        nonPaybackPoolPercent buyersShare).accumulatedEarnings
      = tokenPrice * paybackRatio
    ∧ (estimateTokenPayback log10 tokenNumber tokenPrice paybackRatio
        nonPaybackPoolPercent buyersShare).roi
      = roundTo2 (tokenPrice * paybackRatio / tokenPrice * 100 - 100)
    ∧ tokenNumber + 100
      ≤ (estimateTokenPayback log10 tokenNumber tokenPrice paybackRatio
        nonPaybackPoolPercent buyersShare).paybackSale := by
  refine ⟨rfl, rfl, ?_⟩
  simp only [estimateTokenPayback]
  exact le_max_right _ _

/-- Witness for C9 (amended) at token 1, price 3, ratio 2. -/
theorem estimate_payback_spec_witness :
    (estimateTokenPayback (fun _ => 0) 1 3 2 1 1).accumulatedEarnings = 3 * 2
    ∧ (estimateTokenPayback (fun _ => 0) 1 3 2 1 1).roi
      = roundTo2 (3 * 2 / 3 * 100 - 100)
    ∧ (1 : ℚ) + 100 ≤ (estimateTokenPayback (fun _ => 0) 1 3 2 1 1).paybackSale :=
  estimate_payback_spec (fun _ => 0) 1 3 2 1 1 (by norm_num) (by norm_num)
    (by norm_num) (by norm_num) (by norm_num) (by norm_num) (by norm_num)

/-! ## Position assignment by sorting (C8) -/

/-- C8 counterexample: a sale with timestamp 0 is treated as having no
timestamp by the comparator (JavaScript truthiness), so two timestamped
sales can come out in strictly decreasing timestamp order. -/
theorem sort_claim_counterexample :
    (sortSales [{ buyer := "a", timestamp := some 1 },
        { buyer := "b", timestamp := some 0 }]).map Sale.timestamp
      = [some 1, some 0]
    ∧ ¬((1 : ℚ) ≤ 0) := by
  constructor
  · have e1 : jsMergeSort jsLe [({ buyer := "a", timestamp := some 1 } : Sale)]
        = [({ buyer := "a", timestamp := some 1 } : Sale)] := by
      rw [jsMergeSort]
      norm_num
    have e2 : jsMergeSort jsLe [({ buyer := "b", timestamp := some 0 } : Sale)]
        = [({ buyer := "b", timestamp := some 0 } : Sale)] := by
      rw [jsMergeSort]
      norm_num
    have hle : jsLe { buyer := "a", timestamp := some 1 }
        { buyer := "b", timestamp := some 0 } = true := by
      simp [jsLe]
    rw [sortSales, jsMergeSort]
    rw [if_neg (by norm_num : ¬(([{ buyer := "a", timestamp := some 1 },
      { buyer := "b", timestamp := some 0 }] : List Sale).length ≤ 1))]
    norm_num [e1, e2, List.take_succ_cons, List.take_zero, List.drop_succ_cons,
      List.drop_zero]
    rw [jsMerge, if_pos hle, jsMerge]
    norm_num
  · norm_num

/-- C8 (amended).  The sort compares two sales only when both carry
nonzero timestamps: when every sale carries a nonzero timestamp the
positions are in nondecreasing timestamp order, and the sales without a
nonzero (present or zero) timestamp keep their relative insertion order.
Two timestamped sales separated by a non-truthy one need not be ordered. -/
theorem sort_order_amended (l : List Sale) :
    ((∀ s ∈ l, ∃ t, s.timestamp = some t ∧ t ≠ 0) →
      (sortSales l).Pairwise (fun a b => ∀ ta tb, a.timestamp = some ta →
        b.timestamp = some tb → ta ≤ tb))
    ∧ (sortSales l).filter (fun s => !(tsTruthy s))
        = l.filter (fun s => !(tsTruthy s)) := by
  constructor
  · intro hall
    have hcongr : sortSales l = jsMergeSort
        (fun a b : Sale => decide (a.timestamp.getD 0 ≤ b.timestamp.getD 0)) l := by
      apply jsMergeSort_congr
      intro x hx y hy
      obtain ⟨tx, hx1, hx2⟩ := hall x hx
      obtain ⟨ty, hy1, hy2⟩ := hall y hy
      rw [show jsLe x y = decide (tx ≤ ty) from by
        simp only [jsLe, hx1, hy1]
        rw [if_pos ⟨hx2, hy2⟩]]
      rw [hx1, hy1, Option.getD_some, Option.getD_some]
    rw [show sortSales l = jsMergeSort jsLe l from rfl] at hcongr ⊢
    rw [hcongr]
    have hpw := jsMergeSort_pairwise
      (fun a b : Sale => decide (a.timestamp.getD 0 ≤ b.timestamp.getD 0))
      (fun a b c hab hbc => by
        simp only [decide_eq_true_eq] at hab hbc ⊢
        exact le_trans hab hbc)
      (fun a b => by
        rcases le_total (a.timestamp.getD 0) (b.timestamp.getD 0) with h | h
        · left; simpa using h
        · right; simpa using h) l
    refine hpw.imp ?_
    intro a b hab ta tb hta htb
    simp only [decide_eq_true_eq] at hab
    rw [hta, htb, Option.getD_some, Option.getD_some] at hab
    exact hab
  · refine jsMergeSort_filter jsLe _ ?_ ?_ l
    · intro a b h
      rcases ha : a.timestamp with _ | ta
      · rcases hb : b.timestamp with _ | tb <;> simp [jsLe, ha, hb]
      · have hta : ta = 0 := by
          simp only [tsTruthy, ha, Bool.not_eq_true'] at h
          simpa using h
        rcases hb : b.timestamp with _ | tb
        · simp [jsLe, ha, hb]
        · simp [jsLe, ha, hb, hta]
    · intro a b h
      rcases hb : b.timestamp with _ | tb
      · rcases ha : a.timestamp with _ | ta <;> simp [jsLe, ha, hb]
      · have htb : tb = 0 := by
          simp only [tsTruthy, hb, Bool.not_eq_true'] at h
          simpa using h
        rcases ha : a.timestamp with _ | ta
        · simp [jsLe, ha, hb]
        · simp [jsLe, ha, hb, htb]

/-- Witness for C8 (amended): an all-truthy ledger sorts into
nondecreasing order, and an untimestamped sale keeps its position among
the non-truthy ones. -/
theorem sort_order_amended_witness :
    (sortSales [{ buyer := "a", timestamp := some 2 },
        { buyer := "b", timestamp := some 1 }]).Pairwise
      (fun a b => ∀ ta tb, a.timestamp = some ta → b.timestamp = some tb → ta ≤ tb)
    ∧ (sortSales [{ buyer := "c" }, { buyer := "d", timestamp := some 3 }]).filter
        (fun s => !(tsTruthy s))
      = [{ buyer := "c" }, { buyer := "d", timestamp := some 3 }].filter
        (fun s => !(tsTruthy s)) :=
  ⟨(sort_order_amended _).1 (by
      intro s hs
      simp only [List.mem_cons, List.not_mem_nil, or_false] at hs
      rcases hs with rfl | rfl
      · exact ⟨2, rfl, by norm_num⟩
      · exact ⟨1, rfl, by norm_num⟩),
    (sort_order_amended _).2⟩

/-! ## Shape of the per-buyer mapping (C7) -/

theorem setBuyer_keys_mem (m : List (String × ℚ)) (k : String) (v : ℚ)
    (b : String) :
    b ∈ (setBuyer m k v).map Prod.fst ↔ b ∈ m.map Prod.fst ∨ b = k := by
  induction m with
  | nil => simp [setBuyer]
  | cons q rest ih =>
      rcases q with ⟨k1, v1⟩
      by_cases h : k1 = k
      · subst h
        rw [setBuyer, if_pos rfl]
        simp only [List.map_cons, List.mem_cons]
        tauto
      · simp only [setBuyer, if_neg h, List.map_cons, List.mem_cons, ih]
        tauto

theorem addBuyer_keys_mem (m : List (String × ℚ)) (k : String) (v : ℚ)
    (b : String) :
    b ∈ (addBuyer m k v).map Prod.fst ↔ b ∈ m.map Prod.fst ∨ b = k := by
  induction m with
  | nil => simp [addBuyer]
  | cons q rest ih =>
      rcases q with ⟨k1, v1⟩
      by_cases h : k1 = k
      · subst h
        rw [addBuyer, if_pos rfl]
        simp only [List.map_cons, List.mem_cons]
        tauto
      · simp only [addBuyer, if_neg h, List.map_cons, List.mem_cons, ih]
        tauto

theorem setBuyer_keys_nodup (m : List (String × ℚ)) (k : String) (v : ℚ)
    (h : (m.map Prod.fst).Nodup) : ((setBuyer m k v).map Prod.fst).Nodup := by
  induction m with
  | nil => simp [setBuyer]
  | cons q rest ih =>
      rcases q with ⟨k1, v1⟩
      rw [List.map_cons, List.nodup_cons] at h
      by_cases hk : k1 = k
      · subst hk
        rw [setBuyer, if_pos rfl, List.map_cons, List.nodup_cons]
        exact ⟨h.1, h.2⟩
      · rw [setBuyer, if_neg hk, List.map_cons, List.nodup_cons]
        refine ⟨fun hmem => ?_, ih h.2⟩
        rcases (setBuyer_keys_mem rest k v k1).1 hmem with hin | heq
        · exact h.1 hin
        · exact hk heq

theorem addBuyer_keys_nodup (m : List (String × ℚ)) (k : String) (v : ℚ)
    (h : (m.map Prod.fst).Nodup) : ((addBuyer m k v).map Prod.fst).Nodup := by
  induction m with
  | nil => simp [addBuyer]
  | cons q rest ih =>
      rcases q with ⟨k1, v1⟩
      rw [List.map_cons, List.nodup_cons] at h
      by_cases hk : k1 = k
      · subst hk
        rw [addBuyer, if_pos rfl, List.map_cons, List.nodup_cons]
        exact ⟨h.1, h.2⟩
      · rw [addBuyer, if_neg hk, List.map_cons, List.nodup_cons]
        refine ⟨fun hmem => ?_, ih h.2⟩
        rcases (addBuyer_keys_mem rest k v k1).1 hmem with hin | heq
        · exact h.1 hin
        · exact hk heq

theorem addBuyer_keys_of_mem (m : List (String × ℚ)) (k : String) (v : ℚ)
    (h : k ∈ m.map Prod.fst) :
    (addBuyer m k v).map Prod.fst = m.map Prod.fst := by
  induction m with
  | nil => simp at h
  | cons q rest ih =>
      rcases q with ⟨k1, v1⟩
      by_cases hk : k1 = k
      · rw [addBuyer, if_pos hk, List.map_cons, List.map_cons]
      · rw [addBuyer, if_neg hk, List.map_cons, List.map_cons]
        rw [List.map_cons, List.mem_cons] at h
        rcases h with heq | hin
        · exact absurd heq.symm hk
        · rw [ih hin]

theorem foldl_addBuyer_keys (l : List Sale) (m : List (String × ℚ)) (x : ℚ)
    (hcov : ∀ s ∈ l, s.buyer ∈ m.map Prod.fst) :
    (l.foldl (fun m2 s => addBuyer m2 s.buyer x) m).map Prod.fst
      = m.map Prod.fst := by
  induction l generalizing m with
  | nil => rfl
  | cons s l ih =>
      rw [List.foldl_cons]
      have hkeys := addBuyer_keys_of_mem m s.buyer x
        (hcov s (List.mem_cons_self s l))
      rw [ih _ (fun s2 h2 => by
        rw [hkeys]
        exact hcov s2 (List.mem_cons_of_mem _ h2)), hkeys]

theorem processAllBuyers_keys (sortedSales : List Sale) (p : Payouts) (share : ℚ)
    (hcov : ∀ s ∈ sortedSales, s.buyer ∈ p.buyers.map Prod.fst) :
    (processAllBuyersAllocation sortedSales p share).buyers.map Prod.fst
      = p.buyers.map Prod.fst := by
  simp only [processAllBuyersAllocation]
  split_ifs
  · rfl
  · exact foldl_addBuyer_keys sortedSales p.buyers _ hcov

theorem processGroup_keys (rule : Rule) (sortedSales : List Sale) (p : Payouts)
    (share : ℚ)
    (hcov : ∀ s ∈ sortedSales, s.buyer ∈ p.buyers.map Prod.fst) :
    (processGroupAllocation rule sortedSales p share).buyers.map Prod.fst
      = p.buyers.map Prod.fst := by
  rcases hfe : rule.fromEnd with _ | _
  · simp only [processGroupAllocation, hfe, Bool.false_eq_true, if_false]
    split_ifs with hgs
    · rfl
    · exact foldl_addBuyer_keys _ p.buyers _
        fun s hs => hcov s (List.take_subset _ _ hs)
  · simp only [processGroupAllocation, hfe, if_true]
    split_ifs with hgs
    · rfl
    · exact foldl_addBuyer_keys _ p.buyers _
        fun s hs => hcov s (List.drop_subset _ _ hs)

theorem routeShareFixed_keys (k : String) (rule : Rule)
    (sortedSales : List Sale) (p : Payouts) (share : ℚ)
    (hcov : ∀ s ∈ sortedSales, s.buyer ∈ p.buyers.map Prod.fst) :
    (routeShareFixed k rule sortedSales p share).buyers.map Prod.fst
      = p.buyers.map Prod.fst := by
  unfold routeShareFixed
  split_ifs
  · rfl
  · rfl
  · rfl
  · exact processGroup_keys rule sortedSales p share hcov
  · exact processAllBuyers_keys sortedSales p share hcov
  · rfl

theorem routeShareRemainder_keys (k : String) (rule : Rule)
    (sortedSales : List Sale) (p : Payouts) (share : ℚ)
    (hcov : ∀ s ∈ sortedSales, s.buyer ∈ p.buyers.map Prod.fst) :
    (routeShareRemainder k rule sortedSales p share).buyers.map Prod.fst
      = p.buyers.map Prod.fst := by
  unfold routeShareRemainder
  split_ifs
  · rfl
  · rfl
  · rfl
  · exact processAllBuyers_keys sortedSales p share hcov
  · exact processGroup_keys rule sortedSales p share hcov
  · rfl

theorem processFixedPercentages_keys (scheme : Scheme) (sortedSales : List Sale)
    (p : Payouts) (tr : ℚ)
    (hcov : ∀ s ∈ sortedSales, s.buyer ∈ p.buyers.map Prod.fst) :
    (processFixedPercentages scheme sortedSales p tr).buyers.map Prod.fst
      = p.buyers.map Prod.fst := by
  induction scheme generalizing p with
  | nil => rfl
  | cons kr rest ih =>
      rcases hp : kr.2.percentage with _ | pct
      · have ihp := ih (p := p) hcov
        simp only [processFixedPercentages, List.foldl_cons, hp] at ihp ⊢
        exact ihp
      · have hstep := routeShareFixed_keys kr.1 kr.2 sortedSales p
          (tr * pct / 100) hcov
        have hcov2 : ∀ s ∈ sortedSales, s.buyer ∈
            (routeShareFixed kr.1 kr.2 sortedSales p
              (tr * pct / 100)).buyers.map Prod.fst := fun s hs => by
          rw [hstep]
          exact hcov s hs
        have ihp := ih (p := routeShareFixed kr.1 kr.2 sortedSales p
          (tr * pct / 100)) hcov2
        simp only [processFixedPercentages, List.foldl_cons, hp] at ihp ⊢
        rw [ihp, hstep]

theorem foldl_routeRemainder_keys (rules : List (String × Rule))
    (sortedSales : List Sale) (p : Payouts) (x : ℚ)
    (hcov : ∀ s ∈ sortedSales, s.buyer ∈ p.buyers.map Prod.fst) :
    ((rules.foldl
        (fun p2 kr => routeShareRemainder kr.1 kr.2 sortedSales p2 x) p)).buyers.map
        Prod.fst
      = p.buyers.map Prod.fst := by
  induction rules generalizing p with
  | nil => rfl
  | cons kr rest ih =>
      rw [List.foldl_cons]
      have hstep := routeShareRemainder_keys kr.1 kr.2 sortedSales p x hcov
      have hcov2 : ∀ s ∈ sortedSales, s.buyer ∈
          (routeShareRemainder kr.1 kr.2 sortedSales p x).buyers.map Prod.fst :=
        fun s hs => by
          rw [hstep]
          exact hcov s hs
      rw [ih _ hcov2, hstep]

theorem processRemainder_keys (scheme : Scheme) (sortedSales : List Sale)
    (p : Payouts) (tr t : ℚ)
    (hcov : ∀ s ∈ sortedSales, s.buyer ∈ p.buyers.map Prod.fst) :
    (processRemainder scheme sortedSales p tr t).buyers.map Prod.fst
      = p.buyers.map Prod.fst := by
  simp only [processRemainder]
  split_ifs
  · rfl
  · rfl
  · exact foldl_routeRemainder_keys _ sortedSales p _ hcov

theorem init_keys (l : List Sale) (m : List (String × ℚ))
    (hnd : (m.map Prod.fst).Nodup) :
    (((l.foldl (fun m2 s => setBuyer m2 s.buyer 0) m).map Prod.fst).Nodup)
    ∧ ∀ b, b ∈ (l.foldl (fun m2 s => setBuyer m2 s.buyer 0) m).map Prod.fst ↔
        b ∈ m.map Prod.fst ∨ b ∈ l.map Sale.buyer := by
  induction l generalizing m with
  | nil =>
      refine ⟨hnd, fun b => ?_⟩
      simp
  | cons s l ih =>
      have h1 := setBuyer_keys_nodup m s.buyer 0 hnd
      obtain ⟨ihn, ihm⟩ := ih (m := setBuyer m s.buyer 0) h1
      refine ⟨by rw [List.foldl_cons]; exact ihn, fun b => ?_⟩
      rw [List.foldl_cons, ihm b, setBuyer_keys_mem, List.map_cons, List.mem_cons]
      tauto

theorem buyerAt_all_zero (m : List (String × ℚ))
    (h : ∀ q ∈ m, q.2 = (0 : ℚ)) (b : String) : buyerAt m b = 0 := by
  induction m with
  | nil => rfl
  | cons q rest ih =>
      rcases q with ⟨k1, v1⟩
      rw [buyerAt_cons]
      split_ifs with hk
      · exact h (k1, v1) (List.mem_cons_self _ _)
      · exact ih fun q2 h2 => h q2 (List.mem_cons_of_mem _ h2)

theorem buyerAt_nodup_mem (m : List (String × ℚ))
    (hnd : (m.map Prod.fst).Nodup) (q : String × ℚ) (hq : q ∈ m) :
    buyerAt m q.1 = q.2 := by
  induction m with
  | nil => exact absurd hq (List.not_mem_nil q)
  | cons p rest ih =>
      rcases p with ⟨k1, v1⟩
      rw [List.map_cons, List.nodup_cons] at hnd
      rw [buyerAt_cons]
      rcases List.mem_cons.1 hq with rfl | hq2
      · rw [if_pos rfl]
      · have hne : k1 ≠ q.1 := by
          intro he
          apply hnd.1
          rw [he]
          exact List.mem_map.2 ⟨q, hq2, rfl⟩
        rw [if_neg hne]
        exact ih hnd.2 hq2

theorem processAllBuyers_of_nil (sortedSales : List Sale) (p : Payouts)
    (share : ℚ) (h : sortedSales.length = 0) :
    processAllBuyersAllocation sortedSales p share = p := by
  simp only [processAllBuyersAllocation]
  rw [if_pos (by omega)]

theorem buyerAt_processAllBuyers_pos (sortedSales : List Sale) (p : Payouts)
    (share : ℚ) (b : String) (h : sortedSales.length ≠ 0) :
    buyerAt (processAllBuyersAllocation sortedSales p share).buyers b
      = buyerAt p.buyers b
        + (sortedSales.countP (fun s => s.buyer == b) : ℚ)
          * (share / (sortedSales.length : ℚ)) := by
  simp only [processAllBuyersAllocation]
  rw [if_neg (by omega)]
  exact buyerAt_foldl_addBuyer _ _ _ b

theorem processGroup_of_zero (rule : Rule) (sortedSales : List Sale)
    (p : Payouts) (share : ℚ) (h : min rule.count sortedSales.length = 0) :
    processGroupAllocation rule sortedSales p share = p := by
  simp only [processGroupAllocation]
  rw [groupLength, show min (min rule.count sortedSales.length) rule.count
    = min rule.count sortedSales.length from by omega, if_pos (by omega)]

theorem buyerAt_processGroup_pos (rule : Rule) (sortedSales : List Sale)
    (p : Payouts) (share : ℚ) (b : String)
    (h : min rule.count sortedSales.length ≠ 0) :
    buyerAt (processGroupAllocation rule sortedSales p share).buyers b
      = buyerAt p.buyers b
        + ((if rule.fromEnd then
              sortedSales.drop (sortedSales.length - rule.count)
            else sortedSales.take rule.count).countP (fun s => s.buyer == b) : ℚ)
          * (share / ((min rule.count sortedSales.length : ℕ) : ℚ)) := by
  simp only [processGroupAllocation]
  rw [groupLength, show min (min rule.count sortedSales.length) rule.count
    = min rule.count sortedSales.length from by omega, if_neg (by omega)]
  exact buyerAt_foldl_addBuyer _ _ _ b

theorem buyerAt_routeShareFixed (k : String) (rule : Rule)
    (sortedSales : List Sale) (p : Payouts) (share : ℚ) (b : String) :
    buyerAt (routeShareFixed k rule sortedSales p share).buyers b
      = buyerAt p.buyers b + shareCreditFixed k rule sortedSales share b := by
  unfold routeShareFixed shareCreditFixed
  split_ifs with h1 h2 h3 h4 h5 h6 h7 h8
  · simp
  · simp
  · simp
  · rw [processGroup_of_zero _ _ _ _ h5, add_zero]
  · rw [buyerAt_processGroup_pos _ _ _ _ _ h5, if_pos h6]
  · rw [buyerAt_processGroup_pos _ _ _ _ _ h5, if_neg h6]
  · rw [processAllBuyers_of_nil _ _ _ h8, add_zero]
  · exact buyerAt_processAllBuyers_pos _ _ _ _ h8
  · rw [add_zero]

theorem buyerAt_routeShareRemainder (k : String) (rule : Rule)
    (sortedSales : List Sale) (p : Payouts) (share : ℚ) (b : String) :
    buyerAt (routeShareRemainder k rule sortedSales p share).buyers b
      = buyerAt p.buyers b + shareCreditRemainder k rule sortedSales share b := by
  unfold routeShareRemainder shareCreditRemainder
  split_ifs with h1 h2 h3 h4 h5 h6 h7 h8
  · simp
  · simp
  · simp
  · rw [processAllBuyers_of_nil _ _ _ h5, add_zero]
  · exact buyerAt_processAllBuyers_pos _ _ _ _ h5
  · rw [processGroup_of_zero _ _ _ _ h7, add_zero]
  · rw [buyerAt_processGroup_pos _ _ _ _ _ h7, if_pos h8]
  · rw [buyerAt_processGroup_pos _ _ _ _ _ h7, if_neg h8]
  · rw [add_zero]

theorem buyerAt_processFixedPercentages (scheme : Scheme)
    (sortedSales : List Sale) (p : Payouts) (tr : ℚ) (b : String) :
    buyerAt (processFixedPercentages scheme sortedSales p tr).buyers b
      = buyerAt p.buyers b + (scheme.map (fun kr =>
          match kr.2.percentage with
          | none => 0
          | some pct =>
              shareCreditFixed kr.1 kr.2 sortedSales (tr * pct / 100) b)).sum := by
  induction scheme generalizing p with
  | nil => simp [processFixedPercentages]
  | cons kr rest ih =>
      rcases hp : kr.2.percentage with _ | pct
      · have ihp := ih (p := p)
        simp only [processFixedPercentages, List.foldl_cons, hp, List.map_cons,
          List.sum_cons] at ihp ⊢
        rw [ihp]
        ring
      · have hstep := buyerAt_routeShareFixed kr.1 kr.2 sortedSales p
          (tr * pct / 100) b
        have ihp := ih (p := routeShareFixed kr.1 kr.2 sortedSales p
          (tr * pct / 100))
        simp only [processFixedPercentages, List.foldl_cons, hp, List.map_cons,
          List.sum_cons] at ihp ⊢
        rw [ihp, hstep]
        ring

theorem buyerAt_foldl_routeRemainder (rules : List (String × Rule))
    (sortedSales : List Sale) (p : Payouts) (x : ℚ) (b : String) :
    buyerAt ((rules.foldl
        (fun p2 kr => routeShareRemainder kr.1 kr.2 sortedSales p2 x) p)).buyers b
      = buyerAt p.buyers b + (rules.map (fun kr =>
          shareCreditRemainder kr.1 kr.2 sortedSales x b)).sum := by
  induction rules generalizing p with
  | nil => simp
  | cons kr rest ih =>
      rw [List.foldl_cons, ih, buyerAt_routeShareRemainder, List.map_cons,
        List.sum_cons]
      ring

theorem buyerAt_processRemainder (scheme : Scheme) (sortedSales : List Sale)
    (p : Payouts) (tr t : ℚ) (b : String) :
    buyerAt (processRemainder scheme sortedSales p tr t).buyers b
      = buyerAt p.buyers b
        + (if tr * (1 - t / 100) ≤ 0 then 0
           else if (scheme.filter (fun kr => kr.2.remainder)).length = 0 ∧
               scheme.any (fun kr => kr.1 = "author") = true then 0
           else ((scheme.filter (fun kr => kr.2.remainder)).map (fun kr =>
             shareCreditRemainder kr.1 kr.2 sortedSales
               (tr * (1 - t / 100) /
                 ((scheme.filter (fun kr => kr.2.remainder)).length : ℚ)) b)).sum) := by
  simp only [processRemainder]
  split_ifs with h1 h2
  · simp
  · simp
  · exact buyerAt_foldl_routeRemainder _ _ _ _ b

/-- C7 counterexample: two distinct sale records sharing the buyer
identifier "a" produce a single per-buyer entry, because the mapping is
keyed by buyer identifier. -/
theorem perBuyer_entries_counterexample :
    (calculate [{ buyer := "a", timestamp := some 1 },
        { buyer := "a", timestamp := some 2 }] [] 0).buyers = [("a", 0)] := by
  have e1 : jsMergeSort jsLe [({ buyer := "a", timestamp := some 1 } : Sale)]
      = [({ buyer := "a", timestamp := some 1 } : Sale)] := by
    rw [jsMergeSort]
    norm_num
  have e2 : jsMergeSort jsLe [({ buyer := "a", timestamp := some 2 } : Sale)]
      = [({ buyer := "a", timestamp := some 2 } : Sale)] := by
    rw [jsMergeSort]
    norm_num
  have hle : jsLe { buyer := "a", timestamp := some 1 }
      { buyer := "a", timestamp := some 2 } = true := by
    simp [jsLe]
  have hsort : sortSales [{ buyer := "a", timestamp := some 1 },
      { buyer := "a", timestamp := some 2 }]
      = [{ buyer := "a", timestamp := some 1 },
        { buyer := "a", timestamp := some 2 }] := by
    rw [sortSales, jsMergeSort]
    rw [if_neg (by norm_num : ¬(([{ buyer := "a", timestamp := some 1 },
      { buyer := "a", timestamp := some 2 }] : List Sale).length ≤ 1))]
    norm_num [e1, e2, List.take_succ_cons, List.take_zero, List.drop_succ_cons,
      List.drop_zero]
    rw [jsMerge, if_pos hle, jsMerge]
  simp only [calculate, hsort]
  norm_num [processFixedPercentages, processRemainder,
    calculateAllocatedPercentage, setBuyer, List.foldl_cons, List.foldl_nil]

/-- C7 (amended).  The per-buyer mapping has exactly one entry per unique
buyer identifier appearing in the ledger: its keys are duplicate-free and
cover precisely the ledger's buyer identifiers, and every entry's value
is the sum of all the allocations the scheme's rules (fixed-percentage
and remainder passes alike) make to that identifier — so sales repeating
a buyer identifier share the single summed entry, and a buyer to whom no
rule allocates anything appears with value 0. -/
theorem perBuyer_mapping_keys (sales : List Sale) (scheme : Scheme) (tr : ℚ) :
    (((calculate sales scheme tr).buyers.map Prod.fst).Nodup)
    ∧ (∀ b, b ∈ (calculate sales scheme tr).buyers.map Prod.fst ↔
        b ∈ sales.map Sale.buyer)
    ∧ (∀ b, buyerAt (calculate sales scheme tr).buyers b
        = buyerCredit scheme (sortSales sales) tr
            (calculateAllocatedPercentage scheme) b)
    ∧ (∀ q ∈ (calculate sales scheme tr).buyers,
        q.2 = buyerCredit scheme (sortSales sales) tr
            (calculateAllocatedPercentage scheme) q.1) := by
  obtain ⟨hnd, hmem⟩ := init_keys (sortSales sales) [] (by simp)
  have hcov0 : ∀ s ∈ sortSales sales, s.buyer ∈
      ((Payouts.mk 0 0 none ((sortSales sales).foldl
        (fun m s => setBuyer m s.buyer 0) [])).buyers.map Prod.fst) := by
    intro s hs
    exact (hmem s.buyer).2 (Or.inr (List.mem_map_of_mem Sale.buyer hs))
  have hkeys1 := processFixedPercentages_keys scheme (sortSales sales)
    (Payouts.mk 0 0 none ((sortSales sales).foldl
      (fun m s => setBuyer m s.buyer 0) [])) tr hcov0
  have hcov1 : ∀ s ∈ sortSales sales, s.buyer ∈
      ((processFixedPercentages scheme (sortSales sales)
        (Payouts.mk 0 0 none ((sortSales sales).foldl
          (fun m s => setBuyer m s.buyer 0) [])) tr).buyers.map Prod.fst) := by
    intro s hs
    rw [hkeys1]
    exact hcov0 s hs
  have hkeys2 := processRemainder_keys scheme (sortSales sales)
    (processFixedPercentages scheme (sortSales sales)
      (Payouts.mk 0 0 none ((sortSales sales).foldl
        (fun m s => setBuyer m s.buyer 0) [])) tr) tr
    (calculateAllocatedPercentage scheme) hcov1
  have hperm : ∀ b : String, b ∈ (sortSales sales).map Sale.buyer ↔
      b ∈ sales.map Sale.buyer :=
    fun b => ((jsMergeSort_perm jsLe sales).map Sale.buyer).mem_iff
  have hnodup : ((calculate sales scheme tr).buyers.map Prod.fst).Nodup := by
    simp only [calculate]
    rw [hkeys2, hkeys1]
    exact hnd
  have hval : ∀ b, buyerAt (calculate sales scheme tr).buyers b
      = buyerCredit scheme (sortSales sales) tr
          (calculateAllocatedPercentage scheme) b := by
    intro b
    simp only [calculate, buyerCredit]
    rw [buyerAt_processRemainder, buyerAt_processFixedPercentages,
      buyerAt_all_zero ((Payouts.mk 0 0 none ((sortSales sales).foldl
        (fun m s => setBuyer m s.buyer 0) [])).buyers)
        (foldl_setBuyer_zero_values _ [] (by simp)) b]
    ring
  refine ⟨hnodup, fun b => ?_, hval, fun q hq => ?_⟩
  · simp only [calculate]
    rw [hkeys2, hkeys1, hmem b]
    simp [hperm b]
  · rw [← hval q.1]
    exact (buyerAt_nodup_mem _ hnodup q hq).symm

/-- Witness for C7 (amended) at a concrete ledger and scheme with a
stakeholder rule and an all-buyers remainder rule. -/
theorem perBuyer_mapping_keys_witness :
    ((((calculate [{ buyer := "a", timestamp := some 1 }, { buyer := "b" }]
        [("author", { percentage := some 50 }),
         ("allBuyers", { remainder := true })] 200).buyers.map Prod.fst).Nodup)
    ∧ (∀ b, b ∈ (calculate [{ buyer := "a", timestamp := some 1 }, { buyer := "b" }]
        [("author", { percentage := some 50 }),
         ("allBuyers", { remainder := true })] 200).buyers.map Prod.fst ↔
        b ∈ ([{ buyer := "a", timestamp := some 1 },
          { buyer := "b" }] : List Sale).map Sale.buyer)
    ∧ (∀ b, buyerAt (calculate [{ buyer := "a", timestamp := some 1 }, { buyer := "b" }]
        [("author", { percentage := some 50 }),
         ("allBuyers", { remainder := true })] 200).buyers b
        = buyerCredit [("author", { percentage := some 50 }),
            ("allBuyers", { remainder := true })]
            (sortSales [{ buyer := "a", timestamp := some 1 }, { buyer := "b" }]) 200
            (calculateAllocatedPercentage [("author", { percentage := some 50 }),
              ("allBuyers", { remainder := true })]) b)
    ∧ (∀ q ∈ (calculate [{ buyer := "a", timestamp := some 1 }, { buyer := "b" }]
        [("author", { percentage := some 50 }),
         ("allBuyers", { remainder := true })] 200).buyers,
        q.2 = buyerCredit [("author", { percentage := some 50 }),
            ("allBuyers", { remainder := true })]
            (sortSales [{ buyer := "a", timestamp := some 1 }, { buyer := "b" }]) 200
            (calculateAllocatedPercentage [("author", { percentage := some 50 }),
              ("allBuyers", { remainder := true })]) q.1)) :=
  perBuyer_mapping_keys [{ buyer := "a", timestamp := some 1 }, { buyer := "b" }]
    [("author", { percentage := some 50 }), ("allBuyers", { remainder := true })] 200

end RevShare
